import Mathlib

/-!
Verification of the CSL-sanitizer normalization engine.

The authoritative rule code lives in `src/lib/utils/hayagriva.ts`
(`normalize_csl`, `remove_duplicate_layouts`, `replace_space_et_al_terms`);
those functions are embedded below over a document tree, following the
object model of the XML library the source uses (children of an element are
addressed per tag name, and a tag name denotes: nothing when no child of
that name exists, the single child when exactly one exists, and the list of
children when several exist).  JavaScript runtime errors (property access on
`undefined`, iterating a non-iterable) are embedded as `JsError.typeError`,
failed `assert` calls as `JsError.assertionError`.

The document model itself (lossless parse/serialize) is delegated by the
source to an external XML library, so it is modelled from the spec: a tree
of elements / text / comments together with an executable parser and
serializer over a canonical XML fragment (attributes double-quoted and
single-space separated, empty elements self-closing, comment bodies free of
dashes, no XML declaration).  All characters are ASCII in the inputs of
interest, so byte-for-byte identity is modelled as `List Char` equality.
-/

set_option maxRecDepth 4000

/-- A document node: element (tag name, ordered attributes, ordered
children), verbatim text, or comment. -/
inductive Node where
  | element (name : String) (attrs : List (String × String)) (children : List Node)
  | text (s : String)
  | comment (s : String)

/-- A document is the ordered list of root-level nodes. -/
abbrev Document := List Node

/-- Characters allowed in tag and attribute names. -/
def nameChar (c : Char) : Bool :=
  c.isAlphanum || c == '-' || c == '_' || c == ':' || c == '.'

/-- Characters allowed in text nodes (anything but a tag opener). -/
def textChar (c : Char) : Bool := !(c == '<')

/-- Characters allowed in attribute values (anything but the closing quote). -/
def valueChar (c : Char) : Bool := !(c == '"')

/-- Characters allowed in comment bodies (the modelled fragment keeps
comment bodies dash-free so that the terminator is unambiguous). -/
def commentChar (c : Char) : Bool := !(c == '-')

/-- Serialize one attribute list: a leading space before each `k="v"`. -/
def serAttrs : List (String × String) → List Char
  | [] => []
  | (k, v) :: as => ' ' :: (k.data ++ '=' :: '"' :: (v.data ++ '"' :: serAttrs as))

mutual

/-- Serialize a node (spec: unmodified structure must reproduce its source
text; empty elements serialize in self-closing form). -/
def serNode : Node → List Char
  | .element nm as [] => '<' :: (nm.data ++ serAttrs as ++ ['/', '>'])
  | .element nm as (c :: cs) =>
      '<' :: (nm.data ++ serAttrs as ++ '>' :: serNodes (c :: cs))
        ++ '<' :: '/' :: (nm.data ++ ['>'])
  | .text s => s.data
  | .comment s => '<' :: '!' :: '-' :: '-' :: (s.data ++ ['-', '-', '>'])

/-- Serialize a node list by concatenation. -/
def serNodes : List Node → List Char
  | [] => []
  | n :: ns => serNode n ++ serNodes ns

end

/-- Match a literal character sequence, returning the remainder. -/
def dropLit : List Char → List Char → Option (List Char)
  | [], cs => some cs
  | _ :: _, [] => none
  | l :: ls, c :: cs => if c == l then dropLit ls cs else none

/-- Parse the attribute list of a start tag (zero or more of
`␣name="value"`); stops before the first character that does not open a
well-formed attribute. -/
def parseAttrs : Nat → List Char → Option (List (String × String) × List Char)
  | 0, _ => none
  | _ + 1, [] => some ([], [])
  | fuel + 1, c :: cs =>
    if c == ' ' then
      let k := cs.takeWhile nameChar
      if k.isEmpty then some ([], c :: cs)
      else
        match cs.dropWhile nameChar with
        | '=' :: '"' :: r2 =>
          let v := r2.takeWhile valueChar
          match r2.dropWhile valueChar with
          | '"' :: r4 =>
            match parseAttrs fuel r4 with
            | some (as, r5) => some ((String.mk k, String.mk v) :: as, r5)
            | none => none
          | _ => some ([], c :: cs)
        | _ => some ([], c :: cs)
    else some ([], c :: cs)

/-- Does node-sequence parsing stop here (end of input or a closing tag)? -/
def stopHere : List Char → Bool
  | [] => true
  | c :: cs =>
    c == '<' &&
    (match cs with
     | c2 :: _ => c2 == '/'
     | [] => false)

/-- Parse the remainder of a tag after the opening `<`, with the parsing of
child sequences delegated to `k`. -/
def parseTagWith (k : List Char → Option (List Node × List Char)) :
    List Char → Option (Node × List Char)
  | [] => none
  | c :: cs =>
    if c == '!' then
      match dropLit ['-', '-'] cs with
      | none => none
      | some r =>
        match dropLit ['-', '-', '>'] (r.dropWhile commentChar) with
        | none => none
        | some r2 => some (.comment (String.mk (r.takeWhile commentChar)), r2)
    else if c == '/' then none
    else
      let nm := (c :: cs).takeWhile nameChar
      let r1 := (c :: cs).dropWhile nameChar
      if nm.isEmpty then none
      else
        match parseAttrs (r1.length + 1) r1 with
        | none => none
        | some (as, r2) =>
          match r2 with
          | '/' :: '>' :: r3 => some (.element (String.mk nm) as [], r3)
          | '>' :: r3 =>
            (match k r3 with
             | none => none
             | some (ns, r4) =>
               if ns.isEmpty then none
               else
                 match r4 with
                 | '<' :: '/' :: r5 =>
                   (match dropLit (nm ++ ['>']) r5 with
                    | none => none
                    | some r6 => some (.element (String.mk nm) as ns, r6))
                 | _ => none)
          | _ => none

mutual

/-- Parse one node. -/
def parseNode : Nat → List Char → Option (Node × List Char)
  | 0, _ => none
  | _ + 1, [] => none
  | fuel + 1, c :: cs =>
    if c == '<' then parseTagWith (parseNodes fuel) cs
    else
      some (.text (String.mk ((c :: cs).takeWhile textChar)),
            (c :: cs).dropWhile textChar)

/-- Parse a node sequence, stopping at end of input or before a closing
tag. -/
def parseNodes : Nat → List Char → Option (List Node × List Char)
  | 0, _ => none
  | fuel + 1, cs =>
    if stopHere cs then some ([], cs)
    else
      match parseNode fuel cs with
      | none => none
      | some (n, r) =>
        match parseNodes fuel r with
        | none => none
        | some (ns, r2) => some (n :: ns, r2)

end

/-- Parse a whole document: every input character must be consumed
(spec: `parse` fails with `MalformedInput` on anything else). -/
def parseDoc (s : List Char) : Option Document :=
  match parseNodes (2 * s.length + 2) s with
  | some (ns, []) => some ns
  | _ => none

example :
    parseDoc "<a x=\"1\"><!--c-->hi<b/></a>".data =
      some [.element "a" [("x", "1")]
        [.comment "c", .text "hi", .element "b" [] []]] := by
  rfl

example :
    serNodes [Node.element "a" [("x", "1")]
        [.comment "c", .text "hi", .element "b" [] []]] =
      "<a x=\"1\"><!--c-->hi<b/></a>".data := by
  rfl

example : parseDoc "<a><b></a>".data = none := by rfl

/-- Is `n` an element with tag name `tag`? -/
def isElemNamed (tag : String) : Node → Bool
  | .element nm _ _ => nm == tag
  | _ => false

/-- The element children of a node list carrying a given tag name. -/
def elemsNamed (tag : String) (ns : List Node) : List Node :=
  ns.filter (isElemNamed tag)

/-- Children of a node (empty for non-elements). -/
def childrenOf : Node → List Node
  | .element _ _ ch => ch
  | _ => []

/-- Attributes of a node (empty for non-elements). -/
def attrsOf : Node → List (String × String)
  | .element _ as _ => as
  | _ => []

/-- Attribute lookup, `None` when the attribute is absent. -/
def attr? (n : Node) (k : String) : Option String :=
  (attrsOf n).lookup k

/-- Result of a property access in the XML library's object model:
a tag name maps to nothing, to the single child of that name, or to the
array of children of that name. -/
inductive JsProp where
  | undef
  | one (n : Node)
  | many (ns : List Node)

/-- The object-model view of `children.tag`. -/
def jsProp (tag : String) (ns : List Node) : JsProp :=
  match elemsNamed tag ns with
  | [] => .undef
  | [x] => .one x
  | xs => .many xs

/-- Embedded JavaScript failures: a `TypeError` (property access on
`undefined` / iterating a non-iterable), a `node:assert` failure, or a
parse failure of the XML library. -/
inductive JsError where
  | typeError
  | assertionError
  | malformedInput

/-- Replace the children of an element. -/
def setChildren (ch : List Node) : Node → Node
  | .element nm as _ => .element nm as ch
  | n => n

/-- Apply `f` to the children list of an element. -/
def mapChildren (f : List Node → List Node) : Node → Node
  | .element nm as ch => .element nm as (f ch)
  | n => n

/-- Apply `f` to every child element named `tag`, in place. -/
def updateElems (tag : String) (f : Node → Node) (ns : List Node) : List Node :=
  ns.map (fun n => if isElemNamed tag n then f n else n)

/-- Set the value of attribute `k` to `v` (in place, keeping order). -/
def setAttr (k v : String) : Node → Node
  | .element nm as ch => .element nm (as.map (fun p => if p.1 == k then (p.1, v) else p)) ch
  | n => n

/-- Message of `remove_duplicate_layouts` for the bibliography section. -/
def bibMsg : String :=
  "Removed the localized layout for bibliography. (Discard CSL-M extension)"

/-- Message of `remove_duplicate_layouts` for the citation section. -/
def citeMsg : String :=
  "Removed the localized layout for citation. (Discard CSL-M extension)"

/-- Message for a renamed `space-et-al` term declaration. -/
def declMsg : String := "Replaced the term name `space-et-al` with `et-al`."

/-- Message for a rewritten `space-et-al` term reference. -/
def refMsg : String :=
  "Replaced the term `space-et-al` referenced by `<et-al>` with `et-al`."

/-- `["en", "zh"].includes(layout["@locale"])` from the source. -/
def locale_ok (n : Node) : Bool :=
  attr? n "locale" == some "en" || attr? n "locale" == some "zh"

/-- Drop the first child element named `layout`. -/
def removeFirstLayout : Node → Node
  | .element nm as ch => .element nm as (ch.eraseP (isElemNamed "layout"))
  | n => n

/-- One section (`bibliography` / `citation`) of `remove_duplicate_layouts`
from `src/lib/utils/hayagriva.ts`: read `style.<tag>.layout`; a missing or
duplicated section, or a section without `layout` children, hits a property
access on `undefined` (TypeError); with one `layout` nothing happens
(`undefined > 1` is false); with several, `assert(length === 2)` and
`assert(["en","zh"].includes(first["@locale"]))` must pass, then the first
`layout` is shifted off and one message is emitted. -/
def dedup_section (tag : String) (msg : String) (styleCh : List Node) :
    Except JsError (List String × List Node) :=
  match jsProp tag styleCh with
  | .undef => .error .typeError
  | .many _ => .error .typeError
  | .one sec =>
    match elemsNamed "layout" (childrenOf sec) with
    | [] => .error .typeError
    | [_] => .ok ([], styleCh)
    | l :: ls =>
      if ls.length == 1 then
        if locale_ok l then
          .ok ([msg], updateElems tag removeFirstLayout styleCh)
        else .error .assertionError
      else .error .assertionError

/-- `remove_duplicate_layouts` from `src/lib/utils/hayagriva.ts`: dedup the
bibliography's layout list, then the citation's. -/
def remove_duplicate_layouts (d : Document) : Except JsError (List String × Document) :=
  match jsProp "style" d with
  | .undef => .error .typeError
  | .many _ => .error .typeError
  | .one st =>
    match dedup_section "bibliography" bibMsg (childrenOf st) with
    | .error e => .error e
    | .ok (m1, c1) =>
      match dedup_section "citation" citeMsg c1 with
      | .error e => .error e
      | .ok (m2, c2) => .ok (m1 ++ m2, updateElems "style" (setChildren c2) d)

/-- Does `macro.names?.["et-al"]?.["@term"] === "space-et-al"` hold?  The
optional chain only finds the construct when `names` and `et-al` are single
children (with several, the array has no such property and the chain yields
`undefined`). -/
def macroMatches (m : Node) : Bool :=
  match jsProp "names" (childrenOf m) with
  | .one n =>
    (match jsProp "et-al" (childrenOf n) with
     | .one ea => attr? ea "term" == some "space-et-al"
     | _ => false)
  | _ => false

/-- Message sequence contributed by one macro. -/
def macroMsgs (m : Node) : List String := if macroMatches m then [refMsg] else []

/-- Rewrite `names/et-al/@term` of a matching macro to `et-al`. -/
def fixMacroEtAl (m : Node) : Node :=
  if macroMatches m then
    mapChildren (updateElems "names"
      (mapChildren (updateElems "et-al" (setAttr "term" "et-al")))) m
  else m

/-- Is this term element `<term name="space-et-al">`? -/
def termMatches (t : Node) : Bool := attr? t "name" == some "space-et-al"

/-- Rename a `space-et-al` term declaration in place. -/
def renameTerm (t : Node) : Node :=
  if termMatches t then setAttr "name" "et-al" t else t

/-- Message sequence contributed by one term declaration. -/
def termMsgs (t : Node) : List String := if termMatches t then [declMsg] else []

/-- Concatenated messages of `f` over a node list. -/
def collectMsgs (f : Node → List String) : List Node → List String
  | [] => []
  | n :: ns => f n ++ collectMsgs f ns

/-- The pure rewriting a locale undergoes: rename `space-et-al` terms. -/
def localeFix (l : Node) : Node :=
  mapChildren (updateElems "terms" (mapChildren (updateElems "term" renameTerm))) l

/-- The term-declaration half of `replace_space_et_al_terms`, for one
locale: `locale.terms` falsy is skipped; several `terms` collections make
`locale.terms.term` undefined, which the wrapping `[locale.terms.term]`
turns into an iteration over `undefined` whose `["@name"]` access throws;
a `terms` collection without `term` children throws the same way.
Otherwise every `<term name="space-et-al">` is renamed with a message. -/
def locale_terms (l : Node) : Except JsError (List String × Node) :=
  match jsProp "terms" (childrenOf l) with
  | .undef => .ok ([], l)
  | .many _ => .error .typeError
  | .one t =>
    match elemsNamed "term" (childrenOf t) with
    | [] => .error .typeError
    | tms => .ok (collectMsgs termMsgs tms, localeFix l)

/-- Process the style's children in order, applying `locale_terms` to each
`locale` element (the iterated collapsed array lists them in document
order). -/
def process_locales : List Node → Except JsError (List String × List Node)
  | [] => .ok ([], [])
  | n :: ns =>
    if isElemNamed "locale" n then
      match locale_terms n with
      | .error e => .error e
      | .ok (m, n') =>
        match process_locales ns with
        | .error e => .error e
        | .ok (ms, ns') => .ok (m ++ ms, n' :: ns')
    else
      match process_locales ns with
      | .error e => .error e
      | .ok (ms, ns') => .ok (ms, n :: ns')

/-- `replace_space_et_al_terms` from `src/lib/utils/hayagriva.ts`: rename
`space-et-al` term declarations in every locale, then rewrite
`names/et-al/@term` references in macros.  A document without `locale`
elements makes the wrapped `[locales]` iteration access `.terms` of
`undefined` (TypeError); `csl.style.macro` with zero or one `macro` child
is not an array, so `for...of` throws (TypeError). -/
def replace_space_et_al_terms (d : Document) : Except JsError (List String × Document) :=
  match jsProp "style" d with
  | .undef => .error .typeError
  | .many _ => .error .typeError
  | .one st =>
    match jsProp "locale" (childrenOf st) with
    | .undef => .error .typeError
    | _ =>
      match process_locales (childrenOf st) with
      | .error e => .error e
      | .ok (m1, ch1) =>
        match elemsNamed "macro" ch1 with
        | [] => .error .typeError
        | [_] => .error .typeError
        | ms =>
          .ok (m1 ++ collectMsgs macroMsgs ms,
               updateElems "style"
                 (setChildren (updateElems "macro" fixMacroEtAl ch1)) d)

/-- `normalize_csl` from `src/lib/utils/hayagriva.ts`, document part: run
both rules in order and concatenate their messages. -/
def normalize_csl (d : Document) : Except JsError (List String × Document) :=
  match remove_duplicate_layouts d with
  | .error e => .error e
  | .ok (m1, d1) =>
    match replace_space_et_al_terms d1 with
    | .error e => .error e
    | .ok (m2, d2) => .ok (m1 ++ m2, d2)

/-- The pipeline for one file: parse, normalize, serialize. -/
def pipeline (s : List Char) : Except JsError (List String × List Char) :=
  match parseDoc s with
  | none => .error .malformedInput
  | some d =>
    match normalize_csl d with
    | .error e => .error e
    | .ok (msgs, d') => .ok (msgs, serNodes d')

/-- Shape of one locale that `replace_space_et_al_terms` traverses without
a TypeError: at most one `terms` collection, and a present collection has
at least one `term` child. -/
def localeShapeOk (l : Node) : Bool :=
  match elemsNamed "terms" (childrenOf l) with
  | [] => true
  | [t] => !(elemsNamed "term" (childrenOf t)).isEmpty
  | _ => false

/-- Shape of a style's children on which both rules run without a
TypeError (given no deviations): a unique `bibliography` and a unique
`citation` each holding at least one `layout`, at least one `locale`, every
locale traversable, and at least two `macro` elements. -/
def WellShapedCh (ch : List Node) : Bool :=
  (match elemsNamed "bibliography" ch with
   | [b] => !(elemsNamed "layout" (childrenOf b)).isEmpty
   | _ => false) &&
  (match elemsNamed "citation" ch with
   | [c] => !(elemsNamed "layout" (childrenOf c)).isEmpty
   | _ => false) &&
  !(elemsNamed "locale" ch).isEmpty &&
  (elemsNamed "locale" ch).all localeShapeOk &&
  2 ≤ (elemsNamed "macro" ch).length

/-- Shape of a document on which both rules run without a TypeError (given
no deviations): a unique `style` whose children are well-shaped. -/
def WellShapedB (d : Document) : Bool :=
  match elemsNamed "style" d with
  | [st] => WellShapedCh (childrenOf st)
  | _ => false

/-- No deviation targeted by `remove_duplicate_layouts` in one section. -/
def sectionNoDev (sec : Node) : Bool :=
  (elemsNamed "layout" (childrenOf sec)).length ≤ 1

/-- No deviation targeted by the term half of `replace_space_et_al_terms`
in one locale. -/
def localeNoDev (l : Node) : Bool :=
  (elemsNamed "terms" (childrenOf l)).all
    (fun tc => (elemsNamed "term" (childrenOf tc)).all (fun t => !termMatches t))

/-- No deviation among a style's children. -/
def NoDevCh (ch : List Node) : Bool :=
  (elemsNamed "bibliography" ch).all sectionNoDev &&
  (elemsNamed "citation" ch).all sectionNoDev &&
  (elemsNamed "locale" ch).all localeNoDev &&
  (elemsNamed "macro" ch).all (fun m => !macroMatches m)

/-- None of the deviations of the source's rule catalog: single layouts,
no `space-et-al` term declaration, no `space-et-al` reference. -/
def NoDevB (d : Document) : Bool :=
  (elemsNamed "style" d).all fun st => NoDevCh (childrenOf st)

/-- A name usable in the modelled grammar. -/
def nameOk (s : String) : Bool := !s.data.isEmpty && s.data.all nameChar

/-- An attribute usable in the modelled grammar. -/
def attrOk (p : String × String) : Bool := nameOk p.1 && p.2.data.all valueChar

mutual

/-- Nodes the serializer can print and the parser then re-reads: sound
names and attributes, nonempty text without tag openers, dash-free comment
bodies. -/
def validNode : Node → Bool
  | .element nm as ch => nameOk nm && as.all attrOk && validNodes ch
  | .text s => !s.data.isEmpty && s.data.all textChar
  | .comment s => s.data.all commentChar

/-- All nodes of a list are valid. -/
def validNodes : List Node → Bool
  | [] => true
  | n :: ns => validNode n && validNodes ns

end

/-- Prepend a text node, unless its content is empty. -/
def consText (s : String) (ns : List Node) : List Node :=
  if s.data.isEmpty then ns else .text s :: ns

/-- Canonical form reached by re-parsing serialized output: adjacent text
nodes merged, empty text nodes dropped. -/
def normTexts : List Node → List Node
  | [] => []
  | .text s :: rest =>
    (match normTexts rest with
     | .text t :: r => consText (s ++ t) r
     | r => consText s r)
  | .element nm as ch :: rest => .element nm as (normTexts ch) :: normTexts rest
  | .comment s :: rest => .comment s :: normTexts rest

theorem dropLit_sound : ∀ ls cs r, dropLit ls cs = some r → ls ++ r = cs := by
  intro ls
  induction ls with
  | nil => intro cs r h; simp [dropLit] at h; simp [h]
  | cons l ls ih =>
    intro cs r h
    match cs with
    | [] => simp [dropLit] at h
    | c :: cs' =>
      simp only [dropLit] at h
      split at h
      · rename_i hc
        have := ih cs' r h
        simp [← this, beq_iff_eq.mp hc]
      · exact absurd h (by simp)

theorem parseAttrs_sound :
    ∀ fuel cs as r, parseAttrs fuel cs = some (as, r) → serAttrs as ++ r = cs := by
  intro fuel
  induction fuel with
  | zero => intro cs as r h; simp [parseAttrs] at h
  | succ f ih =>
    intro cs as r h
    match cs with
    | [] =>
      simp only [parseAttrs, Option.some.injEq, Prod.mk.injEq] at h
      obtain ⟨h1, h2⟩ := h
      subst h1; subst h2; rfl
    | c :: cs' =>
      simp only [parseAttrs] at h
      split at h
      · rename_i hsp
        split at h
        · simp only [Option.some.injEq, Prod.mk.injEq] at h
          obtain ⟨h1, h2⟩ := h
          subst h1; subst h2; rfl
        · rename_i hk
          split at h
          · rename_i r2 heq
            split at h
            · rename_i r4 heq2
              split at h
              · rename_i as' r5 heq3
                simp only [Option.some.injEq, Prod.mk.injEq] at h
                obtain ⟨h1, h2⟩ := h
                subst h1; subst h2
                have hrec := ih r4 as' r5 heq3
                have hc : c = ' ' := beq_iff_eq.mp hsp
                subst hc
                have e2 : List.takeWhile valueChar r2 ++ '"' :: r4 = r2 := by
                  rw [show ('"' :: r4 : List Char) = List.dropWhile valueChar r2 from heq2.symm]
                  exact List.takeWhile_append_dropWhile ..
                have e1 : List.takeWhile nameChar cs' ++ '=' :: '"' :: r2 = cs' := by
                  rw [show ('=' :: '"' :: r2 : List Char) = List.dropWhile nameChar cs' from heq.symm]
                  exact List.takeWhile_append_dropWhile ..
                simp only [serAttrs, List.cons_append, List.append_assoc, List.cons.injEq,
                  true_and]
                rw [hrec, e2, e1]
              · exact absurd h (by simp)
            · simp only [Option.some.injEq, Prod.mk.injEq] at h
              obtain ⟨h1, h2⟩ := h
              subst h1; subst h2; rfl
          · simp only [Option.some.injEq, Prod.mk.injEq] at h
            obtain ⟨h1, h2⟩ := h
            subst h1; subst h2; rfl
      · simp only [Option.some.injEq, Prod.mk.injEq] at h
        obtain ⟨h1, h2⟩ := h
        subst h1; subst h2; rfl

theorem parseTagWith_sound (k : List Char → Option (List Node × List Char))
    (hk : ∀ cs ns r, k cs = some (ns, r) → serNodes ns ++ r = cs) :
    ∀ cs n r, parseTagWith k cs = some (n, r) → serNode n ++ r = '<' :: cs := by
  intro cs n r h
  match cs with
  | [] => simp [parseTagWith] at h
  | c :: cs' =>
    simp only [parseTagWith] at h
    split at h
    · rename_i hbang
      split at h
      · exact absurd h (by simp)
      · rename_i rr heq1
        split at h
        · exact absurd h (by simp)
        · rename_i r2 heq2
          simp only [Option.some.injEq, Prod.mk.injEq] at h
          obtain ⟨h1, h2⟩ := h
          subst h1; subst h2
          have e2 : List.takeWhile commentChar rr ++ '-' :: '-' :: '>' :: r2 = rr := by
            rw [show ('-' :: '-' :: '>' :: r2 : List Char) =
                List.dropWhile commentChar rr from by
              simpa using dropLit_sound _ _ _ heq2]
            exact List.takeWhile_append_dropWhile ..
          have e1 : ('-' :: '-' :: rr : List Char) = cs' := by
            simpa using dropLit_sound _ _ _ heq1
          simp only [serNode, beq_iff_eq.mp hbang, List.cons_append, List.nil_append,
            List.append_assoc, List.cons.injEq, true_and]
          rw [e2, e1]
    · split at h
      · exact absurd h (by simp)
      · rename_i hslash
        split at h
        · exact absurd h (by simp)
        · rename_i hnm
          split at h
          · exact absurd h (by simp)
          · rename_i as r2 heqA
            have hattrs := parseAttrs_sound _ _ _ _ heqA
            split at h
            · rename_i r3
              simp only [Option.some.injEq, Prod.mk.injEq] at h
              obtain ⟨h1, h2⟩ := h
              subst h1; subst h2
              have e1 : List.takeWhile nameChar (c :: cs') ++
                  List.dropWhile nameChar (c :: cs') = c :: cs' :=
                List.takeWhile_append_dropWhile ..
              simp only [serNode, List.cons_append, List.nil_append, List.append_assoc,
                List.cons.injEq, true_and]
              rw [hattrs, e1]
            · rename_i r3
              split at h
              · exact absurd h (by simp)
              · rename_i ns' r4 heqK
                split at h
                · exact absurd h (by simp)
                · rename_i hne
                  split at h
                  · rename_i r5
                    split at h
                    · exact absurd h (by simp)
                    · rename_i r6 heqL
                      simp only [Option.some.injEq, Prod.mk.injEq] at h
                      obtain ⟨h1, h2⟩ := h
                      subst h1; subst h2
                      have hks := hk _ _ _ heqK
                      have hlit : List.takeWhile nameChar (c :: cs') ++ '>' :: r6 = r5 := by
                        simpa using dropLit_sound _ _ _ heqL
                      obtain ⟨n0, ns0, rfl⟩ : ∃ a b, ns' = a :: b := by
                        cases ns' with
                        | nil => simp at hne
                        | cons a b => exact ⟨a, b, rfl⟩
                      have e1 : List.takeWhile nameChar (c :: cs') ++
                          List.dropWhile nameChar (c :: cs') = c :: cs' :=
                        List.takeWhile_append_dropWhile ..
                      simp only [serNode, List.cons_append, List.nil_append,
                        List.append_assoc, List.cons.injEq, true_and]
                      rw [hlit, hks, hattrs, e1]
                  · exact absurd h (by simp)
            · exact absurd h (by simp)

theorem parse_sound :
    ∀ fuel,
      (∀ cs n r, parseNode fuel cs = some (n, r) → serNode n ++ r = cs) ∧
      (∀ cs ns r, parseNodes fuel cs = some (ns, r) → serNodes ns ++ r = cs) := by
  intro fuel
  induction fuel with
  | zero =>
    constructor
    · intro cs n r h; simp [parseNode] at h
    · intro cs ns r h; simp [parseNodes] at h
  | succ f ih =>
    obtain ⟨ihN, ihL⟩ := ih
    constructor
    · intro cs n r h
      match cs with
      | [] => simp [parseNode] at h
      | c :: cs' =>
        simp only [parseNode] at h
        split at h
        · rename_i hlt
          have := parseTagWith_sound (parseNodes f) ihL cs' n r h
          rw [this, beq_iff_eq.mp hlt]
        · simp only [Option.some.injEq, Prod.mk.injEq] at h
          obtain ⟨h1, h2⟩ := h
          subst h1; subst h2
          simp [serNode, List.takeWhile_append_dropWhile]
    · intro cs ns r h
      simp only [parseNodes] at h
      split at h
      · simp only [Option.some.injEq, Prod.mk.injEq] at h
        obtain ⟨h1, h2⟩ := h
        subst h1; subst h2
        simp [serNodes]
      · split at h
        · exact absurd h (by simp)
        · rename_i n1 r1 heq1
          split at h
          · exact absurd h (by simp)
          · rename_i ns2 r2 heq2
            simp only [Option.some.injEq, Prod.mk.injEq] at h
            obtain ⟨h1, h2⟩ := h
            subst h1; subst h2
            have e1 := ihN _ _ _ heq1
            have e2 := ihL _ _ _ heq2
            simp only [serNodes, List.append_assoc]
            rw [e2, e1]

theorem parseNode_sound (fuel : Nat) (cs : List Char) (n : Node) (r : List Char)
    (h : parseNode fuel cs = some (n, r)) : serNode n ++ r = cs :=
  (parse_sound fuel).1 cs n r h

theorem parseNodes_sound (fuel : Nat) (cs : List Char) (ns : List Node) (r : List Char)
    (h : parseNodes fuel cs = some (ns, r)) : serNodes ns ++ r = cs :=
  (parse_sound fuel).2 cs ns r h

/-- Left inversion of the document model: any successfully parsed byte
sequence is reproduced bit-for-bit by serializing the parse result. -/
theorem parseDoc_sound (s : List Char) (d : Document)
    (h : parseDoc s = some d) : serNodes d = s := by
  unfold parseDoc at h
  split at h
  · rename_i ns heq
    simp only [Option.some.injEq] at h
    subst h
    simpa using parseNodes_sound _ _ _ _ heq
  · exact absurd h (by simp)

/-- Does the head of `l` (if any) falsify `p`? -/
def headFails (p : Char → Bool) : List Char → Prop
  | [] => True
  | c :: _ => p c = false

theorem takeWhile_all_append (p : Char → Bool) (l1 l2 : List Char)
    (h1 : l1.all p = true) (h2 : headFails p l2) :
    (l1 ++ l2).takeWhile p = l1 ∧ (l1 ++ l2).dropWhile p = l2 := by
  induction l1 with
  | nil =>
    simp only [List.nil_append]
    constructor
    · match l2, h2 with
      | [], _ => rfl
      | c :: cs, h2 => simp [List.takeWhile, show p c = false from h2]
    · match l2, h2 with
      | [], _ => rfl
      | c :: cs, h2 => simp [List.dropWhile, show p c = false from h2]
  | cons a l1 ih =>
    simp only [List.all_cons, Bool.and_eq_true] at h1
    have := ih h1.2
    simp [List.takeWhile, List.dropWhile, h1.1, this.1, this.2]

theorem dropLit_refl (l r : List Char) : dropLit l (l ++ r) = some r := by
  induction l with
  | nil => rfl
  | cons a l ih => simp [dropLit, ih]

theorem stopHere_of_lt_cons (c : Char) (cs : List Char) (h : (c == '<') = false) :
    stopHere (c :: cs) = false := by
  simp [stopHere, h]

theorem stopHere_cons_cons (c2 : Char) (cs : List Char) (h : (c2 == '/') = false) :
    stopHere ('<' :: c2 :: cs) = false := by
  simp [stopHere, h]

theorem nameChar_not_bang (c : Char) (h : nameChar c = true) : (c == '!') = false := by
  rcases Bool.eq_false_or_eq_true (c == '!') with hb | hb
  · rw [beq_iff_eq.mp hb] at h; simp [nameChar] at h
  · exact hb
  
theorem nameChar_not_slash (c : Char) (h : nameChar c = true) : (c == '/') = false := by
  rcases Bool.eq_false_or_eq_true (c == '/') with hb | hb
  · rw [beq_iff_eq.mp hb] at h; simp [nameChar] at h
  · exact hb

theorem nameChar_not_lt (c : Char) (h : nameChar c = true) : (c == '<') = false := by
  rcases Bool.eq_false_or_eq_true (c == '<') with hb | hb
  · rw [beq_iff_eq.mp hb] at h; simp [nameChar] at h
  · exact hb

theorem serAttrs_length_ge (as : List (String × String)) :
    as.length ≤ (serAttrs as).length := by
  induction as with
  | nil => simp [serAttrs]
  | cons a as ih =>
    obtain ⟨k, v⟩ := a
    simp only [serAttrs, List.length_cons, List.length_append]
    omega

theorem serAttrs_parse (as : List (String × String)) :
    ∀ f X, as.all attrOk = true → headFails (fun c => c == ' ') X →
      as.length + 1 ≤ f → parseAttrs f (serAttrs as ++ X) = some (as, X) := by
  induction as with
  | nil =>
    intro f X _ hX hf
    obtain ⟨f', rfl⟩ : ∃ k, f = k + 1 := ⟨f - 1, by omega⟩
    match X with
    | [] => rfl
    | c :: cs =>
      simp only [serAttrs, List.nil_append, parseAttrs]
      rw [if_neg (by simp_all [headFails])]
  | cons a as ih =>
    intro f X hok hX hf
    obtain ⟨k, v⟩ := a
    simp only [List.all_cons, Bool.and_eq_true, attrOk, nameOk] at hok
    obtain ⟨⟨hk, hv⟩, hall⟩ := hok
    simp only [Bool.and_eq_true, Bool.not_eq_true', List.isEmpty_iff] at hk
    obtain ⟨f', rfl⟩ : ∃ m, f = m + 1 := ⟨f - 1, by omega⟩
    have hser : serAttrs ((k, v) :: as) ++ X =
        ' ' :: (k.data ++ ('=' :: '"' :: (v.data ++ '"' :: (serAttrs as ++ X)))) := by
      simp [serAttrs]
    rw [hser]
    simp only [parseAttrs]
    rw [if_pos (by simp)]
    have e1 := takeWhile_all_append nameChar k.data
      ('=' :: '"' :: (v.data ++ '"' :: (serAttrs as ++ X))) hk.2 (by simp [headFails, nameChar])
    rw [e1.1, e1.2]
    rw [if_neg (by simpa using hk.1)]
    have e2 := takeWhile_all_append valueChar v.data ('"' :: (serAttrs as ++ X)) hv
      (by simp [headFails, valueChar])
    simp only [e2.1, e2.2,
      ih f' X hall hX (by simp only [List.length_cons] at hf; omega)]

mutual

/-- Fuel needed by the parser for one node. -/
def sizeN : Node → Nat
  | .element _ _ ch => 1 + sizeL ch
  | .text _ => 1
  | .comment _ => 1

/-- Fuel needed by the parser for a node list. -/
def sizeL : List Node → Nat
  | [] => 1
  | n :: ns => 1 + sizeN n + sizeL ns

end

theorem sizeL_pos (ns : List Node) : 1 ≤ sizeL ns := by
  cases ns <;> simp only [sizeL] <;> omega

/-- Does the list start with a text node? -/
def headIsText : List Node → Bool
  | .text _ :: _ => true
  | _ => false

/-- Split off the maximal leading run of text nodes, concatenated. -/
def splitRun : List Node → String × List Node
  | .text s :: rest => (s ++ (splitRun rest).1, (splitRun rest).2)
  | ns => ("", ns)

theorem splitRun_ser (ns : List Node) :
    serNodes ns = (splitRun ns).1.data ++ serNodes (splitRun ns).2 := by
  induction ns with
  | nil => rfl
  | cons n rest ih =>
    match n with
    | .text s => simp [splitRun, serNodes, serNode, ih, String.data_append]
    | .element nm as ch => simp [splitRun, serNodes]
    | .comment s => simp [splitRun, serNodes]

theorem splitRun_headIsText (ns : List Node) : headIsText (splitRun ns).2 = false := by
  induction ns with
  | nil => rfl
  | cons n rest ih =>
    match n with
    | .text s => simpa [splitRun] using ih
    | .element nm as ch => simp [splitRun, headIsText]
    | .comment s => simp [splitRun, headIsText]

theorem splitRun_sizeL (ns : List Node) : sizeL (splitRun ns).2 ≤ sizeL ns := by
  induction ns with
  | nil => simp [splitRun]
  | cons n rest ih =>
    match n with
    | .text s =>
      simp only [splitRun]
      calc sizeL (splitRun rest).2 ≤ sizeL rest := ih
        _ ≤ sizeL (.text s :: rest) := by simp only [sizeL, sizeN]; omega
    | .element nm as ch => simp [splitRun]
    | .comment s => simp [splitRun]

theorem splitRun_valid (ns : List Node) (h : validNodes ns = true) :
    validNodes (splitRun ns).2 = true ∧ (splitRun ns).1.data.all textChar = true := by
  induction ns with
  | nil => simpa [splitRun] using h
  | cons n rest ih =>
    match n with
    | .text s =>
      simp only [validNodes, validNode, Bool.and_eq_true] at h
      have := ih h.2
      simp only [splitRun]
      exact ⟨this.1, by
        simp only [String.data_append, List.all_append, Bool.and_eq_true]
        exact ⟨h.1.2, this.2⟩⟩
    | .element nm as ch => exact ⟨h, by simp [splitRun]⟩
    | .comment s => exact ⟨h, by simp [splitRun]⟩

theorem splitRun_text_ne (s : String) (rest : List Node)
    (h : validNodes (.text s :: rest) = true) :
    (splitRun (.text s :: rest)).1.data ≠ [] := by
  simp only [validNodes, validNode, Bool.and_eq_true, Bool.not_eq_true'] at h
  have hs : s.data ≠ [] := by simpa using h.1.1
  simp only [splitRun, String.data_append]
  intro hc
  exact hs (List.append_eq_nil.mp hc).1

theorem norm_headIsText (ns : List Node) (h : headIsText ns = false) :
    headIsText (normTexts ns) = false := by
  match ns with
  | [] => simp [normTexts, headIsText]
  | .text s :: rest => simp [headIsText] at h
  | .element nm as ch :: rest => simp [normTexts, headIsText]
  | .comment s :: rest => simp [normTexts, headIsText]

theorem norm_ne_nil (ns : List Node) (hv : validNodes ns = true) (hne : ns ≠ []) :
    normTexts ns ≠ [] := by
  induction ns with
  | nil => exact absurd rfl hne
  | cons n rest ih =>
    match n with
    | .text s =>
      simp only [validNodes, validNode, Bool.and_eq_true, Bool.not_eq_true'] at hv
      have hs : s.data ≠ [] := by simpa using hv.1.1
      simp only [normTexts]
      split
      · simp only [consText, String.data_append, List.isEmpty_iff, List.append_eq_nil]
        simp [hs]
      · simp only [consText, List.isEmpty_iff]
        simp [hs]
    | .element nm as ch => simp [normTexts]
    | .comment s => simp [normTexts]

theorem string_append_empty (s r : String) (h : r.data = []) : s ++ r = s := by
  cases s with
  | mk d1 =>
    cases r with
    | mk d2 =>
      simp only at h
      simp [h, String.ext_iff, String.data_append]

theorem splitRun_norm (ns : List Node) :
    normTexts ns = consText (splitRun ns).1 (normTexts (splitRun ns).2) := by
  induction ns with
  | nil => simp [splitRun, normTexts, consText]
  | cons n rest ih =>
    match n with
    | .element nm as ch => simp [splitRun, consText]
    | .comment s => simp [splitRun, consText]
    | .text s =>
      obtain ⟨r1, r2, hsp⟩ : ∃ a b, splitRun rest = (a, b) := ⟨_, _, rfl⟩
      rw [hsp] at ih
      simp only at ih
      have hh2 : headIsText (normTexts r2) = false :=
        norm_headIsText r2 (by
          have := splitRun_headIsText rest
          rwa [hsp] at this)
      simp only [splitRun, hsp, normTexts, ih]
      by_cases hr1 : r1.data.isEmpty = true
      · have hr1' : s ++ r1 = s := string_append_empty s r1 (by simpa using hr1)
        have hcr1 : consText r1 (normTexts r2) = normTexts r2 := by
          simp [consText, hr1]
        rw [hcr1, hr1']
        match hx : normTexts r2, hh2 with
        | [], _ => simp [consText]
        | .element nm as ch :: t, _ => simp [consText]
        | .comment c :: t, _ => simp [consText]
      · have hcr1 : consText r1 (normTexts r2) = .text r1 :: normTexts r2 := by
          simp [consText, hr1]
        rw [hcr1]

theorem stopHere_head (c : Char) (cs : List Char) (h : stopHere (c :: cs) = true) :
    (c == '<') = true := by
  simp only [stopHere, Bool.and_eq_true] at h
  exact h.1

theorem serNodes_headFails_textChar (ns2 : List Node) (tail : List Char)
    (h2 : headIsText ns2 = false) (ht : stopHere tail = true) :
    headFails textChar (serNodes ns2 ++ tail) := by
  match ns2 with
  | [] =>
    simp only [serNodes, List.nil_append]
    match tail with
    | [] => trivial
    | c :: cs =>
      have := stopHere_head c cs ht
      simp [headFails, textChar, this]
  | .text s :: _ => simp [headIsText] at h2
  | .element nm as [] :: r => simp [serNodes, serNode, headFails, textChar]
  | .element nm as (c0 :: ch) :: r => simp [serNodes, serNode, headFails, textChar]
  | .comment s :: r => simp [serNodes, serNode, headFails, textChar]

theorem headFails_nameChar_serAttrs (as : List (String × String)) (t : List Char)
    (h : headFails nameChar t) : headFails nameChar (serAttrs as ++ t) := by
  match as with
  | [] => simpa [serAttrs]
  | (k, v) :: as' => simp [serAttrs, headFails, nameChar]

theorem parseNodes_step (fuel : Nat) (cs : List Char) (hstop : stopHere cs = false)
    (n : Node) (r : List Char) (hn : parseNode fuel cs = some (n, r))
    (ns : List Node) (r2 : List Char) (hns : parseNodes fuel r = some (ns, r2)) :
    parseNodes (fuel + 1) cs = some (n :: ns, r2) := by
  simp only [parseNodes, hstop, Bool.false_eq_true, if_false, hn, hns]

theorem ser_parse :
    ∀ F ns tail, validNodes ns = true → stopHere tail = true → sizeL ns ≤ F →
      parseNodes F (serNodes ns ++ tail) = some (normTexts ns, tail) := by
  intro F
  induction F using Nat.strong_induction_on with
  | _ F IH =>
  intro ns tail hv ht hsz
  obtain ⟨F1, rfl⟩ : ∃ m, F = m + 1 := ⟨F - 1, by have := sizeL_pos ns; omega⟩
  match ns with
  | [] => simp [serNodes, normTexts, parseNodes, ht]
  | Node.text s :: rest =>
    obtain ⟨r1, r2, hsp⟩ : ∃ a b, splitRun rest = (a, b) := ⟨_, _, rfl⟩
    have hvparts : validNode (Node.text s) = true ∧ validNodes rest = true := by
      simpa [validNodes] using hv
    have hsd : s.data ≠ [] := by
      have := hvparts.1
      simp only [validNode, Bool.and_eq_true, Bool.not_eq_true'] at this
      simpa using this.1
    have hsall : s.data.all textChar = true := by
      have := hvparts.1
      simp only [validNode, Bool.and_eq_true] at this
      exact this.2
    have hsv2 := splitRun_valid rest hvparts.2
    rw [hsp] at hsv2
    simp only at hsv2
    have hserS : serNodes (Node.text s :: rest) = (s ++ r1).data ++ serNodes r2 := by
      have := splitRun_ser (Node.text s :: rest)
      simpa [splitRun, hsp, String.data_append] using this
    have hRall : (s ++ r1).data.all textChar = true := by
      simp [String.data_append, List.all_append, hsall, hsv2.2]
    have hRne : (s ++ r1).data ≠ [] := by
      simp only [String.data_append]
      intro hc
      exact hsd (List.append_eq_nil.mp hc).1
    obtain ⟨rc, rcs, hRD⟩ : ∃ a b, (s ++ r1).data = a :: b := by
      match hx : (s ++ r1).data with
      | [] => exact absurd hx hRne
      | a :: b => exact ⟨a, b, rfl⟩
    have hrc : textChar rc = true := by
      rw [hRD] at hRall
      simp only [List.all_cons, Bool.and_eq_true] at hRall
      exact hRall.1
    have hrc' : ¬((rc == '<') = true) := by
      simp only [textChar, Bool.not_eq_true'] at hrc
      simp [hrc]
    have hh2 : headIsText r2 = false := by
      have := splitRun_headIsText rest; rwa [hsp] at this
    have hbound : headFails textChar (serNodes r2 ++ tail) :=
      serNodes_headFails_textChar r2 tail hh2 ht
    have htw := takeWhile_all_append textChar (s ++ r1).data (serNodes r2 ++ tail) hRall hbound
    simp only [sizeL, sizeN] at hsz
    have hr2sz : sizeL r2 ≤ sizeL rest := by
      have := splitRun_sizeL rest; rwa [hsp] at this
    obtain ⟨F2, rfl⟩ : ∃ m, F1 = m + 1 := ⟨F1 - 1, by have := sizeL_pos rest; omega⟩
    have hcont : parseNodes (F2 + 1) (serNodes r2 ++ tail) = some (normTexts r2, tail) := by
      refine IH (F2 + 1) (by omega) r2 tail hsv2.1 ht (by have := sizeL_pos rest; omega)
    have hstop : stopHere ((s ++ r1).data ++ (serNodes r2 ++ tail)) = false := by
      rw [hRD]
      simp only [List.cons_append]
      refine stopHere_of_lt_cons rc _ ?_
      simpa using hrc'
    have hpn : parseNode (F2 + 1) ((s ++ r1).data ++ (serNodes r2 ++ tail)) =
        some (Node.text (s ++ r1), serNodes r2 ++ tail) := by
      rw [hRD]
      simp only [List.cons_append, parseNode]
      rw [if_neg hrc']
      rw [show (rc :: (rcs ++ (serNodes r2 ++ tail))) =
          (s ++ r1).data ++ (serNodes r2 ++ tail) from by rw [hRD]; simp]
      rw [htw.1, htw.2]
    have hnorm : normTexts (Node.text s :: rest) = Node.text (s ++ r1) :: normTexts r2 := by
      have := splitRun_norm (Node.text s :: rest)
      rw [show splitRun (Node.text s :: rest) = (s ++ r1, r2) from by
        simp [splitRun, hsp]] at this
      simp only at this
      rw [this, consText, if_neg (by simpa using hRne)]
    rw [hserS, List.append_assoc, hnorm]
    exact parseNodes_step (F2 + 1) _ hstop _ _ hpn _ _ hcont
  | Node.comment s :: rest =>
    have hvp : (s.data.all commentChar = true) ∧ validNodes rest = true := by
      simpa [validNodes, validNode] using hv
    simp only [sizeL, sizeN] at hsz
    obtain ⟨F2, rfl⟩ : ∃ m, F1 = m + 1 := ⟨F1 - 1, by have := sizeL_pos rest; omega⟩
    have hcont : parseNodes (F2 + 1) (serNodes rest ++ tail) = some (normTexts rest, tail) :=
      IH (F2 + 1) (by omega) rest tail hvp.2 ht (by omega)
    have hser : serNodes (Node.comment s :: rest) ++ tail =
        '<' :: '!' :: '-' :: '-' ::
          (s.data ++ ('-' :: '-' :: '>' :: (serNodes rest ++ tail))) := by
      simp [serNodes, serNode]
    have htw := takeWhile_all_append commentChar s.data
      ('-' :: '-' :: '>' :: (serNodes rest ++ tail)) hvp.1 (by exact rfl)
    have hstop : stopHere ('<' :: '!' :: '-' :: '-' ::
        (s.data ++ ('-' :: '-' :: '>' :: (serNodes rest ++ tail)))) = false :=
      stopHere_cons_cons '!' _ (by decide)
    have hpn : parseNode (F2 + 1) ('<' :: '!' :: '-' :: '-' ::
        (s.data ++ ('-' :: '-' :: '>' :: (serNodes rest ++ tail)))) =
        some (Node.comment s, serNodes rest ++ tail) := by
      simp only [parseNode, beq_self_eq_true, if_true, parseTagWith, dropLit, htw.1, htw.2]
    rw [hser, show normTexts (Node.comment s :: rest) = Node.comment s :: normTexts rest
      from by simp [normTexts]]
    exact parseNodes_step (F2 + 1) _ hstop _ _ hpn _ _ hcont
  | Node.element nm as ch :: rest =>
    have hvp : validNode (Node.element nm as ch) = true ∧ validNodes rest = true := by
      simpa [validNodes] using hv
    have hvel := hvp.1
    simp only [validNode, nameOk, Bool.and_eq_true, Bool.not_eq_true'] at hvel
    obtain ⟨⟨⟨hnm1, hnm2⟩, has⟩, hch⟩ := hvel
    have hnm1' : nm.data ≠ [] := by simpa using hnm1
    obtain ⟨d, nds, hND⟩ : ∃ a b, nm.data = a :: b := by
      match hx : nm.data with
      | [] => exact absurd hx hnm1'
      | a :: b => exact ⟨a, b, rfl⟩
    have hd : nameChar d = true := by
      rw [hND] at hnm2
      simp only [List.all_cons, Bool.and_eq_true] at hnm2
      exact hnm2.1
    have hdb : ¬((d == '!') = true) := by simp [nameChar_not_bang d hd]
    have hds : ¬((d == '/') = true) := by simp [nameChar_not_slash d hd]
    simp only [sizeL, sizeN] at hsz
    obtain ⟨F2, rfl⟩ : ∃ m, F1 = m + 1 :=
      ⟨F1 - 1, by have := sizeL_pos rest; have := sizeL_pos ch; omega⟩
    have hcont : parseNodes (F2 + 1) (serNodes rest ++ tail) = some (normTexts rest, tail) :=
      IH (F2 + 1) (by omega) rest tail hvp.2 ht (by have := sizeL_pos ch; omega)
    cases ch with
    | nil =>
      have hser : serNodes (Node.element nm as [] :: rest) ++ tail =
          '<' :: (nm.data ++ (serAttrs as ++ '/' :: '>' :: (serNodes rest ++ tail))) := by
        simp [serNodes, serNode]
      have hstop : stopHere ('<' :: (nm.data ++
          (serAttrs as ++ '/' :: '>' :: (serNodes rest ++ tail)))) = false := by
        rw [hND]
        simp only [List.cons_append]
        exact stopHere_cons_cons d _ (nameChar_not_slash d hd)
      have e1 := takeWhile_all_append nameChar nm.data
        (serAttrs as ++ '/' :: '>' :: (serNodes rest ++ tail)) hnm2
        (headFails_nameChar_serAttrs as _ (by exact rfl))
      have hpa := serAttrs_parse as
        ((serAttrs as ++ '/' :: '>' :: (serNodes rest ++ tail)).length + 1)
        ('/' :: '>' :: (serNodes rest ++ tail)) has (by exact rfl)
        (by
          simp only [List.length_append]
          have := serAttrs_length_ge as
          omega)
      have hpt : parseTagWith (parseNodes F2)
          (nm.data ++ (serAttrs as ++ '/' :: '>' :: (serNodes rest ++ tail))) =
          some (Node.element nm as [], serNodes rest ++ tail) := by
        rw [hND]
        simp only [List.cons_append, parseTagWith]
        rw [if_neg hdb, if_neg hds]
        rw [hND] at e1
        simp only [List.cons_append] at e1
        simp only [e1.1, e1.2]
        rw [if_neg (by simp)]
        simp only [hpa]
        rw [← hND]
      rw [hser, show normTexts (Node.element nm as [] :: rest) =
          Node.element nm as [] :: normTexts rest from by simp [normTexts]]
      refine parseNodes_step (F2 + 1) _ hstop _ _ ?_ _ _ hcont
      simp only [parseNode, beq_self_eq_true, if_true, hpt]
    | cons c0 ch' =>
      have hser : serNodes (Node.element nm as (c0 :: ch') :: rest) ++ tail =
          '<' :: (nm.data ++ (serAttrs as ++ '>' :: (serNodes (c0 :: ch') ++
            ('<' :: '/' :: (nm.data ++ '>' :: (serNodes rest ++ tail)))))) := by
        simp [serNodes, serNode]
      have hstop : stopHere ('<' :: (nm.data ++ (serAttrs as ++ '>' ::
          (serNodes (c0 :: ch') ++
            ('<' :: '/' :: (nm.data ++ '>' :: (serNodes rest ++ tail))))))) = false := by
        rw [hND]
        simp only [List.cons_append]
        exact stopHere_cons_cons d _ (nameChar_not_slash d hd)
      have hchild : parseNodes F2 (serNodes (c0 :: ch') ++
          ('<' :: '/' :: (nm.data ++ '>' :: (serNodes rest ++ tail)))) =
          some (normTexts (c0 :: ch'),
            '<' :: '/' :: (nm.data ++ '>' :: (serNodes rest ++ tail))) :=
        IH F2 (by omega) (c0 :: ch') _ hch (by simp [stopHere])
          (by have := sizeL_pos rest; omega)
      have hne : normTexts (c0 :: ch') ≠ [] := norm_ne_nil _ hch (by simp)
      have e1 := takeWhile_all_append nameChar nm.data
        (serAttrs as ++ '>' :: (serNodes (c0 :: ch') ++
          ('<' :: '/' :: (nm.data ++ '>' :: (serNodes rest ++ tail))))) hnm2
        (headFails_nameChar_serAttrs as _ (by exact rfl))
      have hpa := serAttrs_parse as
        ((serAttrs as ++ '>' :: (serNodes (c0 :: ch') ++
          ('<' :: '/' :: (nm.data ++ '>' :: (serNodes rest ++ tail))))).length + 1)
        ('>' :: (serNodes (c0 :: ch') ++
          ('<' :: '/' :: (nm.data ++ '>' :: (serNodes rest ++ tail))))) has (by exact rfl)
        (by
          simp only [List.length_append]
          have := serAttrs_length_ge as
          omega)
      have hpt : parseTagWith (parseNodes F2)
          (nm.data ++ (serAttrs as ++ '>' :: (serNodes (c0 :: ch') ++
            ('<' :: '/' :: (nm.data ++ '>' :: (serNodes rest ++ tail)))))) =
          some (Node.element nm as (normTexts (c0 :: ch')), serNodes rest ++ tail) := by
        rw [hND]
        simp only [List.cons_append, parseTagWith]
        rw [if_neg hdb, if_neg hds]
        rw [hND] at e1
        simp only [List.cons_append] at e1
        simp only [e1.1, e1.2]
        rw [if_neg (by simp)]
        rw [hND] at hpa
        simp only [List.cons_append] at hpa
        simp only [hpa]
        rw [hND] at hchild
        simp only [List.cons_append] at hchild
        simp only [hchild]
        rw [if_neg (by simpa using hne)]
        have hdl : dropLit (d :: (nds ++ ['>']))
            (d :: (nds ++ '>' :: (serNodes rest ++ tail))) = some (serNodes rest ++ tail) := by
          have h0 := dropLit_refl (d :: (nds ++ ['>'])) (serNodes rest ++ tail)
          simpa using h0
        simp only [List.append_assoc, List.cons_append, List.nil_append]
        simp only [hdl]
        rw [← hND]
      rw [hser, show normTexts (Node.element nm as (c0 :: ch') :: rest) =
          Node.element nm as (normTexts (c0 :: ch')) :: normTexts rest
        from by simp [normTexts]]
      refine parseNodes_step (F2 + 1) _ hstop _ _ ?_ _ _ hcont
      simp only [parseNode, beq_self_eq_true, if_true, hpt]

mutual

theorem sizeN_le : ∀ n, validNode n = true → sizeN n + 1 ≤ 2 * (serNode n).length
  | .text s, h => by
    simp only [validNode, Bool.and_eq_true, Bool.not_eq_true'] at h
    have : s.data ≠ [] := by simpa using h.1
    have : 1 ≤ s.data.length := by
      cases hx : s.data with
      | nil => exact absurd hx this
      | cons a b => simp
    simp only [sizeN, serNode]
    omega
  | .comment s, h => by
    simp only [sizeN, serNode, List.length_cons, List.length_append]
    omega
  | .element nm as [], h => by
    simp only [sizeN, sizeL, serNode, List.length_cons, List.length_append]
    omega
  | .element nm as (c0 :: ch), h => by
    simp only [validNode, Bool.and_eq_true] at h
    have hr := sizeL_le (c0 :: ch) h.2
    simp only [sizeN, serNode, List.length_cons, List.length_append]
    simp only [sizeL] at hr ⊢
    omega

theorem sizeL_le : ∀ ns, validNodes ns = true → sizeL ns ≤ 2 * (serNodes ns).length + 1
  | [], _ => by simp [sizeL, serNodes]
  | n :: ns, h => by
    simp only [validNodes, Bool.and_eq_true] at h
    have h1 := sizeN_le n h.1
    have h2 := sizeL_le ns h.2
    simp only [sizeL, serNodes, List.length_append]
    omega

end

/-- Right inversion of the document model: serializing any valid document
and re-parsing succeeds, producing the canonical form (adjacent text nodes
merged). -/
theorem parseDoc_complete (ns : List Node) (hv : validNodes ns = true) :
    parseDoc (serNodes ns) = some (normTexts ns) := by
  unfold parseDoc
  have hb := sizeL_le ns hv
  have := ser_parse (2 * (serNodes ns).length + 2) ns [] hv rfl (by omega)
  rw [List.append_nil] at this
  rw [this]

theorem takeWhile_all_self (p : Char → Bool) (l : List Char) :
    (l.takeWhile p).all p = true := by
  rw [List.all_eq_true]
  intro x hx
  exact List.mem_takeWhile_imp hx

theorem parseAttrs_valid :
    ∀ fuel cs as r, parseAttrs fuel cs = some (as, r) → as.all attrOk = true := by
  intro fuel
  induction fuel with
  | zero => intro cs as r h; simp [parseAttrs] at h
  | succ f ih =>
    intro cs as r h
    match cs with
    | [] =>
      simp only [parseAttrs, Option.some.injEq, Prod.mk.injEq] at h
      obtain ⟨h1, _⟩ := h
      subst h1; rfl
    | c :: cs' =>
      simp only [parseAttrs] at h
      split at h
      · split at h
        · simp only [Option.some.injEq, Prod.mk.injEq] at h
          obtain ⟨h1, _⟩ := h; subst h1; rfl
        · rename_i hk
          split at h
          · rename_i r2 heq
            split at h
            · rename_i r4 heq2
              split at h
              · rename_i as' r5 heq3
                simp only [Option.some.injEq, Prod.mk.injEq] at h
                obtain ⟨h1, _⟩ := h
                subst h1
                simp only [List.all_cons, Bool.and_eq_true]
                refine ⟨?_, ih _ _ _ heq3⟩
                simp only [attrOk, nameOk, Bool.and_eq_true]
                refine ⟨⟨?_, takeWhile_all_self ..⟩, takeWhile_all_self ..⟩
                simpa using hk
              · exact absurd h (by simp)
            · simp only [Option.some.injEq, Prod.mk.injEq] at h
              obtain ⟨h1, _⟩ := h; subst h1; rfl
          · simp only [Option.some.injEq, Prod.mk.injEq] at h
            obtain ⟨h1, _⟩ := h; subst h1; rfl
      · simp only [Option.some.injEq, Prod.mk.injEq] at h
        obtain ⟨h1, _⟩ := h; subst h1; rfl

theorem parseTagWith_valid (k : List Char → Option (List Node × List Char))
    (hk : ∀ cs ns r, k cs = some (ns, r) → validNodes ns = true) :
    ∀ cs n r, parseTagWith k cs = some (n, r) → validNode n = true := by
  intro cs n r h
  match cs with
  | [] => simp [parseTagWith] at h
  | c :: cs' =>
    simp only [parseTagWith] at h
    split at h
    · split at h
      · exact absurd h (by simp)
      · rename_i rr heq1
        split at h
        · exact absurd h (by simp)
        · rename_i r2 heq2
          simp only [Option.some.injEq, Prod.mk.injEq] at h
          obtain ⟨h1, _⟩ := h
          subst h1
          simp only [validNode]
          exact takeWhile_all_self ..
    · split at h
      · exact absurd h (by simp)
      · rename_i hslash
        split at h
        · exact absurd h (by simp)
        · rename_i hnm
          split at h
          · exact absurd h (by simp)
          · rename_i as r2 heqA
            have hattrs := parseAttrs_valid _ _ _ _ heqA
            split at h
            · rename_i r3
              simp only [Option.some.injEq, Prod.mk.injEq] at h
              obtain ⟨h1, _⟩ := h
              subst h1
              simp only [validNode, validNodes, nameOk, Bool.and_eq_true]
              exact ⟨⟨⟨by simpa using hnm, takeWhile_all_self ..⟩, hattrs⟩, trivial⟩
            · rename_i r3
              split at h
              · exact absurd h (by simp)
              · rename_i ns' r4 heqK
                split at h
                · exact absurd h (by simp)
                · rename_i hne
                  split at h
                  · rename_i r5
                    split at h
                    · exact absurd h (by simp)
                    · rename_i r6 heqL
                      simp only [Option.some.injEq, Prod.mk.injEq] at h
                      obtain ⟨h1, _⟩ := h
                      subst h1
                      simp only [validNode, nameOk, Bool.and_eq_true]
                      exact ⟨⟨⟨by simpa using hnm, takeWhile_all_self ..⟩, hattrs⟩,
                        hk _ _ _ heqK⟩
                  · exact absurd h (by simp)
            · exact absurd h (by simp)

theorem parse_valid :
    ∀ fuel,
      (∀ cs n r, parseNode fuel cs = some (n, r) → validNode n = true) ∧
      (∀ cs ns r, parseNodes fuel cs = some (ns, r) → validNodes ns = true) := by
  intro fuel
  induction fuel with
  | zero =>
    constructor
    · intro cs n r h; simp [parseNode] at h
    · intro cs ns r h; simp [parseNodes] at h
  | succ f ih =>
    obtain ⟨ihN, ihL⟩ := ih
    constructor
    · intro cs n r h
      match cs with
      | [] => simp [parseNode] at h
      | c :: cs' =>
        simp only [parseNode] at h
        split at h
        · exact parseTagWith_valid (parseNodes f) ihL cs' n r h
        · rename_i hlt
          simp only [Option.some.injEq, Prod.mk.injEq] at h
          obtain ⟨h1, _⟩ := h
          subst h1
          simp only [validNode, Bool.and_eq_true, Bool.not_eq_true']
          constructor
          · simp only [List.takeWhile]
            rw [show textChar c = true from by simp [textChar, hlt]]
            simp
          · exact takeWhile_all_self ..
    · intro cs ns r h
      simp only [parseNodes] at h
      split at h
      · simp only [Option.some.injEq, Prod.mk.injEq] at h
        obtain ⟨h1, _⟩ := h
        subst h1; rfl
      · split at h
        · exact absurd h (by simp)
        · rename_i n1 r1 heq1
          split at h
          · exact absurd h (by simp)
          · rename_i ns2 r2 heq2
            simp only [Option.some.injEq, Prod.mk.injEq] at h
            obtain ⟨h1, _⟩ := h
            subst h1
            simp only [validNodes, Bool.and_eq_true]
            exact ⟨ihN _ _ _ heq1, ihL _ _ _ heq2⟩

theorem parseDoc_valid (s : List Char) (d : Document) (h : parseDoc s = some d) :
    validNodes d = true := by
  unfold parseDoc at h
  split at h
  · rename_i ns heq
    simp only [Option.some.injEq] at h
    subst h
    exact (parse_valid _).2 _ _ _ heq
  · exact absurd h (by simp)

/-- The element tag name of a node, if any. -/
def nameOf : Node → Option String
  | .element nm _ _ => some nm
  | _ => none

theorem isElemNamed_eq_nameOf (tag : String) (n : Node) :
    isElemNamed tag n = (nameOf n == some tag) := by
  cases n <;> simp [isElemNamed, nameOf]

theorem isElemNamed_elim (tag : String) (n : Node) (h : isElemNamed tag n = true) :
    ∃ as ch, n = .element tag as ch := by
  match n with
  | .element nm as ch =>
    simp only [isElemNamed, beq_iff_eq] at h
    exact ⟨as, ch, by rw [h]⟩
  | .text s => simp [isElemNamed] at h
  | .comment s => simp [isElemNamed] at h

theorem elemsNamed_mem (tag : String) (ns : List Node) (n : Node)
    (h : n ∈ elemsNamed tag ns) : n ∈ ns ∧ isElemNamed tag n = true := by
  unfold elemsNamed at h
  exact ⟨List.mem_of_mem_filter h, List.of_mem_filter h⟩

theorem elemsNamed_updateElems_same (tag : String) (f : Node → Node) (ns : List Node)
    (hf : ∀ n, nameOf (f n) = nameOf n) :
    elemsNamed tag (updateElems tag f ns) = (elemsNamed tag ns).map f := by
  induction ns with
  | nil => rfl
  | cons n ns ih =>
    simp only [updateElems, List.map_cons] at ih ⊢
    by_cases hn : isElemNamed tag n = true
    · rw [if_pos hn]
      have h2 : isElemNamed tag (f n) = true := by
        rw [isElemNamed_eq_nameOf, hf, ← isElemNamed_eq_nameOf]
        exact hn
      simp only [elemsNamed, List.filter_cons, h2, hn, if_pos, List.map_cons]
      exact congrArg _ ih
    · rw [if_neg hn]
      have hn' : isElemNamed tag n = false := by
        cases hx : isElemNamed tag n
        · rfl
        · exact absurd hx hn
      simp only [elemsNamed, List.filter_cons, hn']
      exact ih

theorem elemsNamed_updateElems_ne (tag t : String) (hne : t ≠ tag) (f : Node → Node)
    (ns : List Node) (hf : ∀ n, nameOf (f n) = nameOf n) :
    elemsNamed t (updateElems tag f ns) = elemsNamed t ns := by
  induction ns with
  | nil => rfl
  | cons n ns ih =>
    simp only [updateElems, List.map_cons] at ih ⊢
    have hsame : isElemNamed t (f n) = isElemNamed t n := by
      rw [isElemNamed_eq_nameOf, hf, ← isElemNamed_eq_nameOf]
    simp only [elemsNamed] at ih
    by_cases hn : isElemNamed tag n = true
    · rw [if_pos hn]
      obtain ⟨as, ch, rfl⟩ := isElemNamed_elim tag n hn
      have ht : isElemNamed t (Node.element tag as ch) = false := by
        simp [isElemNamed]
        exact fun hc => absurd hc.symm hne
      simp [elemsNamed, List.filter_cons, hsame, ht, ih]
    · rw [if_neg hn]
      by_cases ht : isElemNamed t n = true
      · simp [elemsNamed, List.filter_cons, ht, ih]
      · simp [elemsNamed, List.filter_cons, ht, ih]

theorem updateElems_id (tag : String) (f : Node → Node) (ns : List Node)
    (h : ∀ n ∈ ns, isElemNamed tag n = true → f n = n) : updateElems tag f ns = ns := by
  induction ns with
  | nil => rfl
  | cons n ns ih =>
    have ht := ih fun x hx => h x (List.mem_cons_of_mem n hx)
    simp only [updateElems] at ht
    simp only [updateElems, List.map_cons, ht]
    by_cases hn : isElemNamed tag n = true
    · rw [if_pos hn, h n (List.mem_cons_self n ns) hn]
    · rw [if_neg hn]

theorem filter_eraseP (p : Node → Bool) (l : List Node) :
    (l.eraseP p).filter p = (l.filter p).tail := by
  induction l with
  | nil => rfl
  | cons a l ih =>
    by_cases ha : p a = true
    · simp [List.eraseP_cons, List.filter_cons, ha]
    · have ha' : p a = false := by
        cases hx : p a
        · rfl
        · exact absurd hx ha
      simp [List.eraseP_cons, List.filter_cons, ha', ih]

theorem nameOf_setChildren (ch : List Node) (n : Node) :
    nameOf (setChildren ch n) = nameOf n := by
  cases n <;> rfl

theorem nameOf_mapChildren (f : List Node → List Node) (n : Node) :
    nameOf (mapChildren f n) = nameOf n := by
  cases n <;> rfl

theorem nameOf_setAttr (k v : String) (n : Node) :
    nameOf (setAttr k v n) = nameOf n := by
  cases n <;> rfl

theorem nameOf_removeFirstLayout (n : Node) :
    nameOf (removeFirstLayout n) = nameOf n := by
  cases n <;> rfl

theorem nameOf_renameTerm (n : Node) : nameOf (renameTerm n) = nameOf n := by
  unfold renameTerm
  split
  · exact nameOf_setAttr _ _ _
  · rfl

theorem nameOf_localeFix (n : Node) : nameOf (localeFix n) = nameOf n :=
  nameOf_mapChildren _ _

theorem nameOf_fixMacroEtAl (n : Node) : nameOf (fixMacroEtAl n) = nameOf n := by
  unfold fixMacroEtAl
  split
  · exact nameOf_mapChildren _ _
  · rfl

theorem childrenOf_setChildren (ch : List Node) (tag : String)
    (as : List (String × String)) (och : List Node) :
    childrenOf (setChildren ch (.element tag as och)) = ch := rfl

theorem childrenOf_mapChildren (f : List Node → List Node) (hf : f [] = []) (n : Node) :
    childrenOf (mapChildren f n) = f (childrenOf n) := by
  cases n <;> simp [mapChildren, childrenOf, hf]

theorem updateElems_nil (tag : String) (f : Node → Node) : updateElems tag f [] = [] := rfl

theorem attr?_setAttr_same (k v : String) (n : Node) (w : String)
    (h : attr? n k = some w) : attr? (setAttr k v n) k = some v := by
  match n with
  | .text s => simp [attr?, attrsOf] at h
  | .comment s => simp [attr?, attrsOf] at h
  | .element nm as ch =>
    simp only [attr?, attrsOf, setAttr] at h ⊢
    induction as with
    | nil => simp [List.lookup] at h
    | cons p as ih =>
      obtain ⟨pk, pv⟩ := p
      by_cases hk : k = pk
      · subst hk
        simp only [List.map_cons]
        rw [if_pos (by simp : (((k, pv).1 == k) = true))]
        simp [List.lookup]
      · have h1 : (k == pk) = false := by simp [hk]
        simp only [List.lookup, h1] at h
        simp only [List.map_cons]
        rw [if_neg (by simp [show pk ≠ k from fun hc => hk hc.symm] :
          ¬(((pk, pv).1 == k) = true))]
        simp only [List.lookup, h1]
        exact ih h

theorem attr?_mapChildren (f : List Node → List Node) (n : Node) (k : String) :
    attr? (mapChildren f n) k = attr? n k := by
  cases n <;> rfl

theorem collectMsgs_nil (f : Node → List String) (ns : List Node)
    (h : ∀ n ∈ ns, f n = []) : collectMsgs f ns = [] := by
  induction ns with
  | nil => rfl
  | cons n ns ih =>
    simp only [collectMsgs, h n (List.mem_cons_self n ns)]
    exact ih fun x hx => h x (List.mem_cons_of_mem n hx)

theorem validNodes_eq_all (ns : List Node) : validNodes ns = ns.all validNode := by
  induction ns with
  | nil => rfl
  | cons n ns ih => simp [validNodes, ih]

theorem jsProp_one_elim (tag : String) (ch : List Node) (x : Node)
    (h : jsProp tag ch = .one x) : elemsNamed tag ch = [x] := by
  unfold jsProp at h
  split at h
  · exact absurd h (by simp)
  · rename_i y heq
    simp only [JsProp.one.injEq] at h
    rw [heq, h]
  · exact absurd h (by simp)

theorem jsProp_eq_one (tag : String) (ch : List Node) (x : Node)
    (h : elemsNamed tag ch = [x]) : jsProp tag ch = .one x := by
  unfold jsProp
  rw [h]

theorem mapChildren_id (f : List Node → List Node) (n : Node)
    (h : f (childrenOf n) = childrenOf n) : mapChildren f n = n := by
  cases n with
  | element nm as ch => simp only [mapChildren, childrenOf] at h ⊢; rw [h]
  | text s => rfl
  | comment s => rfl

theorem termMatches_renameTerm (t : Node) : termMatches (renameTerm t) = false := by
  unfold renameTerm
  split
  · rename_i h
    unfold termMatches at h ⊢
    have := attr?_setAttr_same "name" "et-al" t "space-et-al" (by simpa using h)
    rw [this]
    simp
  · rename_i h
    cases hx : termMatches t
    · rfl
    · exact absurd hx h

theorem childrenOf_localeFix (l : Node) :
    childrenOf (localeFix l) =
      updateElems "terms" (mapChildren (updateElems "term" renameTerm)) (childrenOf l) :=
  childrenOf_mapChildren _ rfl l

theorem elems_term_fix (tc : Node) :
    elemsNamed "term" (childrenOf (mapChildren (updateElems "term" renameTerm) tc)) =
      (elemsNamed "term" (childrenOf tc)).map renameTerm := by
  rw [childrenOf_mapChildren _ rfl]
  exact elemsNamed_updateElems_same _ _ _ nameOf_renameTerm

theorem localeNoDev_localeFix (l : Node) : localeNoDev (localeFix l) = true := by
  unfold localeNoDev
  rw [childrenOf_localeFix,
    elemsNamed_updateElems_same _ _ _ (fun n => nameOf_mapChildren _ _)]
  rw [List.all_map]
  rw [List.all_eq_true]
  intro tc _
  simp only [Function.comp_apply]
  rw [elems_term_fix, List.all_map, List.all_eq_true]
  intro t _
  simp [termMatches_renameTerm]

theorem localeShapeOk_localeFix (l : Node) : localeShapeOk (localeFix l) = localeShapeOk l := by
  unfold localeShapeOk
  rw [childrenOf_localeFix,
    elemsNamed_updateElems_same _ _ _ (fun n => nameOf_mapChildren _ _)]
  cases hx : elemsNamed "terms" (childrenOf l) with
  | nil => rfl
  | cons t ts =>
    cases ts with
    | nil =>
      simp only [List.map_cons, List.map_nil]
      rw [elems_term_fix]
      cases elemsNamed "term" (childrenOf t) <;> rfl
    | cons t2 ts2 => simp

theorem macroMatches_fixMacroEtAl (m : Node) : macroMatches (fixMacroEtAl m) = false := by
  unfold fixMacroEtAl
  split
  · rename_i h
    have hm := h
    unfold macroMatches at hm
    split at hm
    · rename_i n hn
      split at hm
      · rename_i ea hea
        have e1 : jsProp "names"
            (childrenOf (mapChildren (updateElems "names"
              (mapChildren (updateElems "et-al" (setAttr "term" "et-al")))) m)) =
            .one (mapChildren (updateElems "et-al" (setAttr "term" "et-al")) n) := by
          rw [childrenOf_mapChildren
            (updateElems "names"
              (mapChildren (updateElems "et-al" (setAttr "term" "et-al")))) rfl]
          apply jsProp_eq_one
          rw [elemsNamed_updateElems_same _ _ _ (fun x => nameOf_mapChildren _ _),
            jsProp_one_elim _ _ _ hn]
          rfl
        have e2 : jsProp "et-al"
            (childrenOf (mapChildren (updateElems "et-al" (setAttr "term" "et-al")) n)) =
            .one (setAttr "term" "et-al" ea) := by
          rw [childrenOf_mapChildren (updateElems "et-al" (setAttr "term" "et-al")) rfl]
          apply jsProp_eq_one
          rw [elemsNamed_updateElems_same _ _ _ (fun x => nameOf_setAttr _ _ _),
            jsProp_one_elim _ _ _ hea]
          rfl
        have e3 := attr?_setAttr_same "term" "et-al" ea "space-et-al" (by simpa using hm)
        simp only [macroMatches, e1, e2, e3]
        simp
      · exact absurd hm (by simp)
    · exact absurd hm (by simp)
  · rename_i h
    cases hx : macroMatches m
    · rfl
    · exact absurd hx h

theorem locale_terms_ok (l : Node) (m : List String) (l' : Node)
    (h : locale_terms l = .ok (m, l')) :
    l' = localeFix l ∧ localeShapeOk l = true := by
  unfold locale_terms at h
  split at h
  · rename_i hu
    simp only [Except.ok.injEq, Prod.mk.injEq] at h
    obtain ⟨_, h2⟩ := h
    subst h2
    have he : elemsNamed "terms" (childrenOf l) = [] := by
      unfold jsProp at hu
      split at hu
      · rename_i heq; exact heq
      · exact absurd hu (by simp)
      · exact absurd hu (by simp)
    constructor
    · unfold localeFix
      refine (mapChildren_id _ _ ?_).symm
      refine updateElems_id _ _ _ ?_
      intro n hn hne
      have hmem : n ∈ elemsNamed "terms" (childrenOf l) := by
        unfold elemsNamed
        exact List.mem_filter.mpr ⟨hn, hne⟩
      rw [he] at hmem
      simp at hmem
    · unfold localeShapeOk
      rw [he]
  · exact absurd h (by simp)
  · rename_i t hone
    split at h
    · exact absurd h (by simp)
    · rename_i tms hne
      simp only [Except.ok.injEq, Prod.mk.injEq] at h
      obtain ⟨_, h2⟩ := h
      subst h2
      refine ⟨rfl, ?_⟩
      unfold localeShapeOk
      rw [jsProp_one_elim _ _ _ hone]
      cases hx : elemsNamed "term" (childrenOf t) with
      | nil => exact absurd hx hne
      | cons a b => simp [hx]

theorem process_locales_ok (ch : List Node) :
    ∀ m ch', process_locales ch = .ok (m, ch') →
      ch' = updateElems "locale" localeFix ch ∧
      ∀ l ∈ elemsNamed "locale" ch, localeShapeOk l = true := by
  induction ch with
  | nil =>
    intro m ch' h
    simp only [process_locales, Except.ok.injEq, Prod.mk.injEq] at h
    obtain ⟨_, h2⟩ := h
    subst h2
    exact ⟨rfl, by simp [elemsNamed]⟩
  | cons n ns ih =>
    intro m ch' h
    simp only [process_locales] at h
    split at h
    · rename_i hloc
      split at h
      · exact absurd h (by simp)
      · rename_i mn n' heq1
        split at h
        · exact absurd h (by simp)
        · rename_i ms ns' heq2
          simp only [Except.ok.injEq, Prod.mk.injEq] at h
          obtain ⟨_, h2⟩ := h
          subst h2
          obtain ⟨hfix, hshape⟩ := locale_terms_ok n mn n' heq1
          obtain ⟨hrec1, hrec2⟩ := ih ms ns' heq2
          constructor
          · rw [hfix, hrec1]
            simp [updateElems, hloc]
          · intro l hl
            unfold elemsNamed at hl
            rw [List.filter_cons, hloc] at hl
            simp only [if_pos] at hl
            rcases List.mem_cons.mp hl with h | h
            · rw [h]; exact hshape
            · exact hrec2 l h
    · rename_i hloc
      split at h
      · exact absurd h (by simp)
      · rename_i ms ns' heq2
        simp only [Except.ok.injEq, Prod.mk.injEq] at h
        obtain ⟨_, h2⟩ := h
        subst h2
        obtain ⟨hrec1, hrec2⟩ := ih ms ns' heq2
        have hloc' : isElemNamed "locale" n = false := by
          cases hx : isElemNamed "locale" n
          · rfl
          · exact absurd hx hloc
        constructor
        · rw [hrec1]
          simp [updateElems, hloc']
        · intro l hl
          unfold elemsNamed at hl
          rw [List.filter_cons, hloc'] at hl
          exact hrec2 l hl

/-- The style children contain exactly one `tag` section with exactly one
`layout` child. -/
def secOne (tag : String) (ch : List Node) : Bool :=
  match elemsNamed tag ch with
  | [sec] => (elemsNamed "layout" (childrenOf sec)).length == 1
  | _ => false

theorem secOne_congr (tag : String) (ch1 ch2 : List Node)
    (h : elemsNamed tag ch1 = elemsNamed tag ch2) : secOne tag ch1 = secOne tag ch2 := by
  unfold secOne
  rw [h]

theorem dedup_section_ok (tag : String) (msg : String) (ch : List Node)
    (m : List String) (ch' : List Node)
    (h : dedup_section tag msg ch = .ok (m, ch')) :
    secOne tag ch' = true ∧ (∀ t, t ≠ tag → elemsNamed t ch' = elemsNamed t ch) := by
  unfold dedup_section at h
  split at h
  · exact absurd h (by simp)
  · exact absurd h (by simp)
  · rename_i sec hone
    have hsec := jsProp_one_elim _ _ _ hone
    have hsecel : ∃ as sch, sec = .element tag as sch := by
      have hmem : sec ∈ elemsNamed tag ch := by rw [hsec]; simp
      exact isElemNamed_elim _ _ (elemsNamed_mem _ _ _ hmem).2
    split at h
    · exact absurd h (by simp)
    · rename_i x hx
      simp only [Except.ok.injEq, Prod.mk.injEq] at h
      obtain ⟨_, h2⟩ := h
      subst h2
      refine ⟨?_, fun t _ => rfl⟩
      unfold secOne
      rw [hsec]
      simp [hx]
    · rename_i l ls hx
      split at h
      · rename_i hlen
        split at h
        · simp only [Except.ok.injEq, Prod.mk.injEq] at h
          obtain ⟨_, h2⟩ := h
          subst h2
          constructor
          · unfold secOne
            rw [elemsNamed_updateElems_same _ _ _ nameOf_removeFirstLayout, hsec]
            obtain ⟨sas, sch, rfl⟩ := hsecel
            simp only [List.map_cons, List.map_nil, removeFirstLayout]
            simp only [elemsNamed, childrenOf] at hx
            have hfe := filter_eraseP (isElemNamed "layout") sch
            rw [hx] at hfe
            simp only [List.tail_cons] at hfe
            simp [elemsNamed, childrenOf, hfe]
            simpa using hlen
          · intro t ht
            exact elemsNamed_updateElems_ne tag t ht _ _ nameOf_removeFirstLayout
        · exact absurd h (by simp)
      · exact absurd h (by simp)

theorem remove_duplicate_layouts_ok (d : Document) (m : List String) (d' : Document)
    (h : remove_duplicate_layouts d = .ok (m, d')) :
    ∃ sa ch c2, elemsNamed "style" d = [.element "style" sa ch] ∧
      d' = updateElems "style" (setChildren c2) d ∧
      secOne "bibliography" c2 = true ∧ secOne "citation" c2 = true ∧
      (∀ t, t ≠ "bibliography" → t ≠ "citation" → elemsNamed t c2 = elemsNamed t ch) := by
  unfold remove_duplicate_layouts at h
  split at h
  · exact absurd h (by simp)
  · exact absurd h (by simp)
  · rename_i st hone
    have hst := jsProp_one_elim _ _ _ hone
    obtain ⟨sa, ch, rfl⟩ : ∃ sa ch, st = .element "style" sa ch := by
      have hmem : st ∈ elemsNamed "style" d := by rw [hst]; simp
      exact isElemNamed_elim _ _ (elemsNamed_mem _ _ _ hmem).2
    split at h
    · exact absurd h (by simp)
    · rename_i m1 c1 heq1
      split at h
      · exact absurd h (by simp)
      · rename_i m2 c2 heq2
        simp only [Except.ok.injEq, Prod.mk.injEq] at h
        obtain ⟨_, h2⟩ := h
        subst h2
        obtain ⟨hb1, hp1⟩ := dedup_section_ok _ _ _ _ _ heq1
        obtain ⟨hb2, hp2⟩ := dedup_section_ok _ _ _ _ _ heq2
        refine ⟨sa, ch, c2, hst, rfl, ?_, hb2, ?_⟩
        · rw [secOne_congr _ _ c1 (hp2 _ (by decide))]
          simpa [childrenOf] using hb1
        · intro t ht1 ht2
          rw [hp2 t ht2, hp1 t ht1]
          simp [childrenOf]

theorem replace_space_et_al_terms_ok (d : Document) (m : List String) (d' : Document)
    (h : replace_space_et_al_terms d = .ok (m, d')) :
    ∃ sa ch, elemsNamed "style" d = [.element "style" sa ch] ∧
      d' = updateElems "style" (setChildren
        (updateElems "macro" fixMacroEtAl (updateElems "locale" localeFix ch))) d ∧
      elemsNamed "locale" ch ≠ [] ∧
      (∀ l ∈ elemsNamed "locale" ch, localeShapeOk l = true) ∧
      2 ≤ (elemsNamed "macro" (updateElems "locale" localeFix ch)).length := by
  unfold replace_space_et_al_terms at h
  split at h
  · exact absurd h (by simp)
  · exact absurd h (by simp)
  · rename_i st hone
    have hst := jsProp_one_elim _ _ _ hone
    obtain ⟨sa, ch, rfl⟩ : ∃ sa ch, st = .element "style" sa ch := by
      have hmem : st ∈ elemsNamed "style" d := by rw [hst]; simp
      exact isElemNamed_elim _ _ (elemsNamed_mem _ _ _ hmem).2
    split at h
    · exact absurd h (by simp)
    · rename_i hnu
      split at h
      · exact absurd h (by simp)
      · rename_i m1 ch1 heqP
        obtain ⟨hch1, hshape⟩ := process_locales_ok _ _ _ heqP
        subst hch1
        split at h
        · exact absurd h (by simp)
        · exact absurd h (by simp)
        · rename_i m0 m0' ms hms
          simp only [Except.ok.injEq, Prod.mk.injEq] at h
          obtain ⟨_, h2⟩ := h
          subst h2
          refine ⟨sa, ch, hst, by simp [childrenOf], ?_, ?_, ?_⟩
          · intro hc
            apply hnu
            unfold jsProp
            simp only [childrenOf]
            rw [hc]
          · simpa [childrenOf] using hshape
          · simp only [childrenOf] at ms hms
            cases hx : elemsNamed "macro" (updateElems "locale" localeFix ch) with
            | nil => exact absurd hx (by simpa using ms)
            | cons a b =>
              cases b with
              | nil => exact absurd hx (by simpa using hms a)
              | cons c e =>
                simp only [List.length_cons]
                omega

theorem secOne_elim (tag : String) (ch : List Node) (h : secOne tag ch = true) :
    ∃ b, elemsNamed tag ch = [b] ∧ (elemsNamed "layout" (childrenOf b)).length = 1 := by
  unfold secOne at h
  split at h
  · rename_i b heq
    exact ⟨b, heq, by simpa using h⟩
  · exact absurd h (by simp)

theorem elems_style_update (d : Document) (sa : List (String × String))
    (ch K : List Node) (hst : elemsNamed "style" d = [.element "style" sa ch]) :
    elemsNamed "style" (updateElems "style" (setChildren K) d) =
      [.element "style" sa K] := by
  rw [elemsNamed_updateElems_same _ _ _ (fun n => nameOf_setChildren K n), hst]
  rfl

theorem normalize_post (d : Document) (m : List String) (d' : Document)
    (h : normalize_csl d = .ok (m, d')) : WellShapedB d' = true ∧ NoDevB d' = true := by
  unfold normalize_csl at h
  split at h
  · exact absurd h (by simp)
  · rename_i m1 d1 heq1
    split at h
    · exact absurd h (by simp)
    · rename_i m2 d2 heq2
      simp only [Except.ok.injEq, Prod.mk.injEq] at h
      obtain ⟨_, h2⟩ := h
      subst h2
      obtain ⟨sa, ch, c2, hst, hd1, hbib, hcite, _⟩ :=
        remove_duplicate_layouts_ok _ _ _ heq1
      obtain ⟨sa2, ch2, hst2, hd2, hlocne, hshape, hmac⟩ :=
        replace_space_et_al_terms_ok _ _ _ heq2
      have hst1 : elemsNamed "style" d1 = [.element "style" sa c2] := by
        rw [hd1]
        exact elems_style_update _ _ _ _ hst
      have hpair : sa2 = sa ∧ ch2 = c2 := by
        have h01 := hst2.symm.trans hst1
        simp only [List.cons.injEq, Node.element.injEq, and_true, true_and] at h01
        exact ⟨h01.1, h01.2⟩
      rw [hpair.2] at hlocne hshape hmac
      rw [hpair.2] at hd2
      set K := updateElems "macro" fixMacroEtAl (updateElems "locale" localeFix c2) with hK
      have hstK : elemsNamed "style" d2 = [.element "style" sa K] := by
        rw [hd2]
        exact elems_style_update _ _ _ _ hst1
      have hKbib : elemsNamed "bibliography" K = elemsNamed "bibliography" c2 := by
        rw [hK, elemsNamed_updateElems_ne _ _ (by decide) _ _ nameOf_fixMacroEtAl,
          elemsNamed_updateElems_ne _ _ (by decide) _ _ nameOf_localeFix]
      have hKcite : elemsNamed "citation" K = elemsNamed "citation" c2 := by
        rw [hK, elemsNamed_updateElems_ne _ _ (by decide) _ _ nameOf_fixMacroEtAl,
          elemsNamed_updateElems_ne _ _ (by decide) _ _ nameOf_localeFix]
      have hKloc : elemsNamed "locale" K =
          (elemsNamed "locale" c2).map localeFix := by
        rw [hK, elemsNamed_updateElems_ne _ _ (by decide) _ _ nameOf_fixMacroEtAl,
          elemsNamed_updateElems_same _ _ _ nameOf_localeFix]
      have hKmac : elemsNamed "macro" K =
          (elemsNamed "macro" (updateElems "locale" localeFix c2)).map fixMacroEtAl := by
        rw [hK, elemsNamed_updateElems_same _ _ _ nameOf_fixMacroEtAl]
      obtain ⟨b, hbeq, hblen⟩ := secOne_elim _ _ hbib
      obtain ⟨c, hceq, hclen⟩ := secOne_elim _ _ hcite
      constructor
      · unfold WellShapedB
        rw [hstK]
        show WellShapedCh K = true
        unfold WellShapedCh
        rw [hKbib, hKcite, hKloc, hKmac]
        simp only [hbeq, hceq]
        simp only [Bool.and_eq_true]
        refine ⟨⟨⟨⟨?_, ?_⟩, ?_⟩, ?_⟩, ?_⟩
        · cases hx : elemsNamed "layout" (childrenOf b) with
          | nil => rw [hx] at hblen; simp at hblen
          | cons a e => simp
        · cases hx : elemsNamed "layout" (childrenOf c) with
          | nil => rw [hx] at hclen; simp at hclen
          | cons a e => simp
        · cases hx : elemsNamed "locale" c2 with
          | nil => exact absurd hx hlocne
          | cons a e => simp [hx]
        · rw [List.all_map, List.all_eq_true]
          intro l hl
          simp only [Function.comp_apply]
          rw [localeShapeOk_localeFix]
          exact hshape l hl
        · rw [List.length_map]
          exact by simpa using hmac
      · unfold NoDevB
        rw [hstK]
        simp only [List.all_cons, List.all_nil, Bool.and_true]
        show NoDevCh K = true
        unfold NoDevCh
        rw [hKbib, hKcite, hKloc, hKmac]
        simp only [hbeq, hceq]
        simp only [Bool.and_eq_true]
        refine ⟨⟨⟨?_, ?_⟩, ?_⟩, ?_⟩
        · simp [sectionNoDev, hblen]
        · simp [sectionNoDev, hclen]
        · rw [List.all_map, List.all_eq_true]
          intro l _
          simp only [Function.comp_apply]
          exact localeNoDev_localeFix l
        · rw [List.all_map, List.all_eq_true]
          intro x _
          simp only [Function.comp_apply]
          simp [macroMatches_fixMacroEtAl]

theorem WellShapedCh_elim (ch : List Node) (h : WellShapedCh ch = true) :
    (∃ b, elemsNamed "bibliography" ch = [b] ∧
      elemsNamed "layout" (childrenOf b) ≠ []) ∧
    (∃ c, elemsNamed "citation" ch = [c] ∧
      elemsNamed "layout" (childrenOf c) ≠ []) ∧
    elemsNamed "locale" ch ≠ [] ∧
    (∀ l ∈ elemsNamed "locale" ch, localeShapeOk l = true) ∧
    2 ≤ (elemsNamed "macro" ch).length := by
  unfold WellShapedCh at h
  simp only [Bool.and_eq_true] at h
  obtain ⟨⟨⟨⟨h1, h2⟩, h3⟩, h4⟩, h5⟩ := h
  refine ⟨?_, ?_, ?_, ?_, by simpa using h5⟩
  · split at h1
    · rename_i b heq
      exact ⟨b, heq, by simpa [List.isEmpty_iff] using h1⟩
    · exact absurd h1 (by simp)
  · split at h2
    · rename_i c heq
      exact ⟨c, heq, by simpa [List.isEmpty_iff] using h2⟩
    · exact absurd h2 (by simp)
  · simpa [List.isEmpty_iff] using h3
  · rw [List.all_eq_true] at h4
    exact h4

theorem NoDevCh_elim (ch : List Node) (h : NoDevCh ch = true) :
    (∀ b ∈ elemsNamed "bibliography" ch, sectionNoDev b = true) ∧
    (∀ c ∈ elemsNamed "citation" ch, sectionNoDev c = true) ∧
    (∀ l ∈ elemsNamed "locale" ch, localeNoDev l = true) ∧
    (∀ x ∈ elemsNamed "macro" ch, macroMatches x = false) := by
  unfold NoDevCh at h
  simp only [Bool.and_eq_true, List.all_eq_true] at h
  obtain ⟨⟨⟨h1, h2⟩, h3⟩, h4⟩ := h
  exact ⟨h1, h2, h3, fun x hx => by simpa using h4 x hx⟩

theorem jsProp_many_elim (tag : String) (ch : List Node) (ts : List Node)
    (h : jsProp tag ch = .many ts) :
    elemsNamed tag ch = ts ∧ ∃ a b r, ts = a :: b :: r := by
  unfold jsProp at h
  cases hx : elemsNamed tag ch with
  | nil => rw [hx] at h; simp at h
  | cons a rest =>
    cases rest with
    | nil => rw [hx] at h; simp at h
    | cons b r =>
      rw [hx] at h
      simp only [JsProp.many.injEq] at h
      exact ⟨h, a, b, r, h.symm⟩

theorem locale_terms_id (l : Node) (hs : localeShapeOk l = true)
    (hn : localeNoDev l = true) : locale_terms l = .ok ([], l) := by
  unfold localeShapeOk at hs
  unfold localeNoDev at hn
  rw [List.all_eq_true] at hn
  unfold locale_terms
  split
  · rfl
  · rename_i ts hts
    obtain ⟨heq, a, b, r, rfl⟩ := jsProp_many_elim _ _ _ hts
    rw [heq] at hs
    simp at hs
  · rename_i t hts
    have heq := jsProp_one_elim _ _ _ hts
    rw [heq] at hs
    have htm := hn t (by rw [heq]; simp)
    rw [List.all_eq_true] at htm
    split
    · rename_i hnil
      simp [hnil] at hs
    · rename_i tms hne
      have hmsgs : collectMsgs termMsgs (elemsNamed "term" (childrenOf t)) = [] := by
        refine collectMsgs_nil _ _ ?_
        intro x hx
        unfold termMsgs
        rw [if_neg (by simpa using htm x hx)]
      have hfix : localeFix l = l := by
        unfold localeFix
        refine mapChildren_id _ _ ?_
        refine updateElems_id _ _ _ ?_
        intro n hnmem hnname
        have : n ∈ elemsNamed "terms" (childrenOf l) := by
          unfold elemsNamed
          exact List.mem_filter.mpr ⟨hnmem, hnname⟩
        rw [heq] at this
        simp only [List.mem_singleton] at this
        subst this
        refine mapChildren_id _ _ ?_
        refine updateElems_id _ _ _ ?_
        intro tm htmmem htmname
        have htmm : tm ∈ elemsNamed "term" (childrenOf n) := by
          unfold elemsNamed
          exact List.mem_filter.mpr ⟨htmmem, htmname⟩
        unfold renameTerm
        rw [if_neg (by simpa using htm tm htmm)]
      rw [hmsgs, hfix]

theorem process_locales_id (ch : List Node)
    (h : ∀ l ∈ elemsNamed "locale" ch, localeShapeOk l = true ∧ localeNoDev l = true) :
    process_locales ch = .ok ([], ch) := by
  induction ch with
  | nil => rfl
  | cons n ns ih =>
    simp only [process_locales]
    by_cases hn : isElemNamed "locale" n = true
    · rw [if_pos hn]
      have hmem : n ∈ elemsNamed "locale" (n :: ns) := by
        unfold elemsNamed
        rw [List.filter_cons, hn]
        simp
      obtain ⟨hs, hnd⟩ := h n hmem
      have e1 := locale_terms_id n hs hnd
      have e2 := ih fun l hl => h l (by
        unfold elemsNamed at hl ⊢
        rw [List.filter_cons, hn]
        simp only [if_pos]
        exact List.mem_cons_of_mem _ hl)
      simp [e1, e2]
    · rw [if_neg hn]
      have hn' : isElemNamed "locale" n = false := by
        cases hx : isElemNamed "locale" n
        · rfl
        · exact absurd hx hn
      have e2 := ih fun l hl => h l (by
        unfold elemsNamed at hl ⊢
        rw [List.filter_cons, hn']
        exact hl)
      simp [e2]

theorem jsProp_undef_elim (tag : String) (ch : List Node)
    (h : jsProp tag ch = .undef) : elemsNamed tag ch = [] := by
  unfold jsProp at h
  cases hx : elemsNamed tag ch with
  | nil => rfl
  | cons a r =>
    rw [hx] at h
    cases r <;> simp at h

theorem dedup_section_id (tag msg : String) (ch : List Node) (b x : Node)
    (hb : elemsNamed tag ch = [b]) (hx : elemsNamed "layout" (childrenOf b) = [x]) :
    dedup_section tag msg ch = .ok ([], ch) := by
  unfold dedup_section
  simp only [jsProp_eq_one _ _ _ hb, hx]

/-- On a well-shaped document with none of the targeted deviations,
`normalize_csl` succeeds, emits no message, and leaves the document
unchanged. -/
theorem normalize_id (d : Document) (hw : WellShapedB d = true)
    (hnd : NoDevB d = true) : normalize_csl d = .ok ([], d) := by
  unfold WellShapedB at hw
  split at hw
  · rename_i st heq
    obtain ⟨sa, ch0, rfl⟩ : ∃ sa ch0, st = .element "style" sa ch0 := by
      have hmem : st ∈ elemsNamed "style" d := by rw [heq]; simp
      exact isElemNamed_elim _ _ (elemsNamed_mem _ _ _ hmem).2
    simp only [childrenOf] at hw
    unfold NoDevB at hnd
    rw [heq] at hnd
    simp only [List.all_cons, List.all_nil, Bool.and_true, childrenOf] at hnd
    obtain ⟨⟨b, hbeq, hbne⟩, ⟨c, hceq, hcne⟩, hlocne, hlshape, hmacn⟩ :=
      WellShapedCh_elim _ hw
    obtain ⟨hbnd, hcnd, hlnd, hmnd⟩ := NoDevCh_elim _ hnd
    obtain ⟨bx, hbx⟩ : ∃ x, elemsNamed "layout" (childrenOf b) = [x] := by
      have hle := hbnd b (by rw [hbeq]; simp)
      unfold sectionNoDev at hle
      cases hx : elemsNamed "layout" (childrenOf b) with
      | nil => exact absurd hx hbne
      | cons a r =>
        rw [hx] at hle
        cases r with
        | nil => exact ⟨a, rfl⟩
        | cons a2 r2 => simp at hle
    obtain ⟨cx, hcx⟩ : ∃ x, elemsNamed "layout" (childrenOf c) = [x] := by
      have hle := hcnd c (by rw [hceq]; simp)
      unfold sectionNoDev at hle
      cases hx : elemsNamed "layout" (childrenOf c) with
      | nil => exact absurd hx hcne
      | cons a r =>
        rw [hx] at hle
        cases r with
        | nil => exact ⟨a, rfl⟩
        | cons a2 r2 => simp at hle
    have hupid : updateElems "style" (setChildren ch0) d = d := by
      refine updateElems_id _ _ _ ?_
      intro n hnmem hname
      have hin : n ∈ elemsNamed "style" d := by
        unfold elemsNamed
        exact List.mem_filter.mpr ⟨hnmem, hname⟩
      rw [heq] at hin
      simp only [List.mem_singleton] at hin
      subst hin
      rfl
    have hr1 : remove_duplicate_layouts d = .ok ([], d) := by
      unfold remove_duplicate_layouts
      simp only [jsProp_eq_one _ _ _ heq, childrenOf,
        dedup_section_id "bibliography" bibMsg ch0 b bx hbeq hbx,
        dedup_section_id "citation" citeMsg ch0 c cx hceq hcx,
        List.nil_append, hupid]
    have hmacup : updateElems "macro" fixMacroEtAl ch0 = ch0 := by
      refine updateElems_id _ _ _ ?_
      intro n hnmem hname
      have hmm : n ∈ elemsNamed "macro" ch0 := by
        unfold elemsNamed
        exact List.mem_filter.mpr ⟨hnmem, hname⟩
      unfold fixMacroEtAl
      rw [if_neg (by simp [hmnd n hmm])]
    have hpl : process_locales ch0 = .ok ([], ch0) :=
      process_locales_id _ fun l hl => ⟨hlshape l hl, hlnd l hl⟩
    obtain ⟨ma, mb, mr, hmeq⟩ : ∃ a b r, elemsNamed "macro" ch0 = a :: b :: r := by
      cases hx : elemsNamed "macro" ch0 with
      | nil => rw [hx] at hmacn; simp at hmacn
      | cons a r =>
        cases r with
        | nil => rw [hx] at hmacn; simp at hmacn
        | cons a2 r2 => exact ⟨a, a2, r2, rfl⟩
    have hmmsgs : collectMsgs macroMsgs (ma :: mb :: mr) = [] := by
      refine collectMsgs_nil _ _ ?_
      intro x hx
      unfold macroMsgs
      rw [if_neg (by simp [hmnd x (by rw [hmeq]; exact hx)])]
    have hr2 : replace_space_et_al_terms d = .ok ([], d) := by
      unfold replace_space_et_al_terms
      simp only [jsProp_eq_one _ _ _ heq, childrenOf]
      cases hjp : jsProp "locale" ch0 with
      | undef => exact absurd (jsProp_undef_elim _ _ hjp) hlocne
      | one x => simp only [hpl, hmeq, hmmsgs, hmacup, hupid, List.nil_append]
      | many xs => simp only [hpl, hmeq, hmmsgs, hmacup, hupid, List.nil_append]
    unfold normalize_csl
    simp only [hr1, hr2, List.nil_append]
  · exact absurd hw (by simp)

theorem validNodes_updateElems (tag : String) (f : Node → Node) (ns : List Node)
    (hf : ∀ n, validNode n = true → validNode (f n) = true)
    (h : validNodes ns = true) : validNodes (updateElems tag f ns) = true := by
  rw [validNodes_eq_all] at h ⊢
  unfold updateElems
  rw [List.all_eq_true] at h ⊢
  intro x hx
  obtain ⟨y, hy, rfl⟩ := List.mem_map.mp hx
  by_cases hn : isElemNamed tag y = true
  · rw [if_pos hn]; exact hf y (h y hy)
  · rw [if_neg hn]; exact h y hy

theorem validNode_children (n : Node) (h : validNode n = true) :
    validNodes (childrenOf n) = true := by
  cases n with
  | element nm as ch =>
    simp only [validNode, Bool.and_eq_true] at h
    exact h.2
  | text s => rfl
  | comment s => rfl

theorem validNode_setChildren (ch : List Node) (n : Node)
    (hch : validNodes ch = true) (hn : validNode n = true) :
    validNode (setChildren ch n) = true := by
  cases n with
  | element nm as och =>
    simp only [validNode, Bool.and_eq_true] at hn
    simp only [setChildren, validNode, Bool.and_eq_true]
    exact ⟨hn.1, hch⟩
  | text s => exact hn
  | comment s => exact hn

theorem validNode_mapChildren (f : List Node → List Node) (n : Node)
    (hf : ∀ cs, validNodes cs = true → validNodes (f cs) = true)
    (hn : validNode n = true) : validNode (mapChildren f n) = true := by
  cases n with
  | element nm as ch =>
    simp only [validNode, Bool.and_eq_true, mapChildren] at hn ⊢
    exact ⟨hn.1, hf ch hn.2⟩
  | text s => exact hn
  | comment s => exact hn

theorem validNode_setAttr (k v : String) (n : Node)
    (hv : v.data.all valueChar = true) (h : validNode n = true) :
    validNode (setAttr k v n) = true := by
  cases n with
  | element nm as ch =>
    simp only [validNode, Bool.and_eq_true, setAttr] at h ⊢
    refine ⟨⟨h.1.1, ?_⟩, h.2⟩
    rw [List.all_eq_true]
    intro x hx
    obtain ⟨y, hy, rfl⟩ := List.mem_map.mp hx
    have hyok : attrOk y = true := by
      rw [List.all_eq_true] at h
      exact h.1.2 y hy
    by_cases hk : (y.1 == k) = true
    · rw [if_pos hk]
      simp only [attrOk, Bool.and_eq_true] at hyok ⊢
      exact ⟨hyok.1, hv⟩
    · rw [if_neg hk]
      exact hyok
  | text s => exact h
  | comment s => exact h

theorem validNode_renameTerm (n : Node) (h : validNode n = true) :
    validNode (renameTerm n) = true := by
  unfold renameTerm
  split
  · exact validNode_setAttr _ _ _ (by decide) h
  · exact h

theorem validNode_removeFirstLayout (n : Node) (h : validNode n = true) :
    validNode (removeFirstLayout n) = true := by
  cases n with
  | element nm as ch =>
    simp only [validNode, Bool.and_eq_true, removeFirstLayout] at h ⊢
    refine ⟨h.1, ?_⟩
    rw [validNodes_eq_all, List.all_eq_true]
    intro x hx
    have hxm : x ∈ ch := List.mem_of_mem_eraseP hx
    have := h.2
    rw [validNodes_eq_all, List.all_eq_true] at this
    exact this x hxm
  | text s => exact h
  | comment s => exact h

theorem validNode_localeFix (n : Node) (h : validNode n = true) :
    validNode (localeFix n) = true := by
  unfold localeFix
  refine validNode_mapChildren _ _ ?_ h
  intro cs hcs
  refine validNodes_updateElems _ _ _ ?_ hcs
  intro x hx
  refine validNode_mapChildren _ _ ?_ hx
  intro cs2 hcs2
  exact validNodes_updateElems _ _ _ (fun y hy => validNode_renameTerm y hy) hcs2

theorem validNode_fixMacroEtAl (n : Node) (h : validNode n = true) :
    validNode (fixMacroEtAl n) = true := by
  unfold fixMacroEtAl
  split
  · refine validNode_mapChildren _ _ ?_ h
    intro cs hcs
    refine validNodes_updateElems _ _ _ ?_ hcs
    intro x hx
    refine validNode_mapChildren _ _ ?_ hx
    intro cs2 hcs2
    exact validNodes_updateElems _ _ _
      (fun y hy => validNode_setAttr _ _ _ (by decide) hy) hcs2
  · exact h

theorem dedup_section_valid (tag msg : String) (ch : List Node) (m : List String)
    (ch' : List Node) (h : dedup_section tag msg ch = .ok (m, ch'))
    (hv : validNodes ch = true) : validNodes ch' = true := by
  unfold dedup_section at h
  split at h
  · exact absurd h (by simp)
  · exact absurd h (by simp)
  · split at h
    · exact absurd h (by simp)
    · simp only [Except.ok.injEq, Prod.mk.injEq] at h
      obtain ⟨_, h2⟩ := h
      subst h2
      exact hv
    · split at h
      · split at h
        · simp only [Except.ok.injEq, Prod.mk.injEq] at h
          obtain ⟨_, h2⟩ := h
          subst h2
          exact validNodes_updateElems _ _ _
            (fun y hy => validNode_removeFirstLayout y hy) hv
        · exact absurd h (by simp)
      · exact absurd h (by simp)

theorem remove_duplicate_layouts_valid (d : Document) (m : List String) (d' : Document)
    (h : remove_duplicate_layouts d = .ok (m, d')) (hv : validNodes d = true) :
    validNodes d' = true := by
  unfold remove_duplicate_layouts at h
  split at h
  · exact absurd h (by simp)
  · exact absurd h (by simp)
  · rename_i st hone
    have hstv : validNode st = true := by
      have hmem : st ∈ elemsNamed "style" d := by rw [jsProp_one_elim _ _ _ hone]; simp
      rw [validNodes_eq_all, List.all_eq_true] at hv
      exact hv st (elemsNamed_mem _ _ _ hmem).1
    split at h
    · exact absurd h (by simp)
    · rename_i m1 c1 heq1
      split at h
      · exact absurd h (by simp)
      · rename_i m2 c2 heq2
        simp only [Except.ok.injEq, Prod.mk.injEq] at h
        obtain ⟨_, h2⟩ := h
        subst h2
        have hc1 := dedup_section_valid _ _ _ _ _ heq1 (validNode_children _ hstv)
        have hc2 := dedup_section_valid _ _ _ _ _ heq2 hc1
        exact validNodes_updateElems _ _ _
          (fun y hy => validNode_setChildren _ _ hc2 hy) hv

theorem replace_space_et_al_terms_valid (d : Document) (m : List String) (d' : Document)
    (h : replace_space_et_al_terms d = .ok (m, d')) (hv : validNodes d = true) :
    validNodes d' = true := by
  obtain ⟨sa, ch, hst, hd', _, _, _⟩ := replace_space_et_al_terms_ok _ _ _ h
  subst hd'
  have hchv : validNodes ch = true := by
    have hmem : Node.element "style" sa ch ∈ elemsNamed "style" d := by rw [hst]; simp
    rw [validNodes_eq_all, List.all_eq_true] at hv
    have := hv _ (elemsNamed_mem _ _ _ hmem).1
    exact validNode_children _ this
  have hK : validNodes (updateElems "macro" fixMacroEtAl
      (updateElems "locale" localeFix ch)) = true := by
    refine validNodes_updateElems _ _ _ (fun y hy => validNode_fixMacroEtAl y hy) ?_
    exact validNodes_updateElems _ _ _ (fun y hy => validNode_localeFix y hy) hchv
  exact validNodes_updateElems _ _ _
    (fun y hy => validNode_setChildren _ _ hK hy) hv

theorem normalize_csl_valid (d : Document) (m : List String) (d' : Document)
    (h : normalize_csl d = .ok (m, d')) (hv : validNodes d = true) :
    validNodes d' = true := by
  unfold normalize_csl at h
  split at h
  · exact absurd h (by simp)
  · rename_i m1 d1 heq1
    split at h
    · exact absurd h (by simp)
    · rename_i m2 d2 heq2
      simp only [Except.ok.injEq, Prod.mk.injEq] at h
      obtain ⟨_, h2⟩ := h
      subst h2
      exact replace_space_et_al_terms_valid _ _ _ heq2
        (remove_duplicate_layouts_valid _ _ _ heq1 hv)

/-- The effect of text-merging on a single element. -/
def normElem : Node → Node
  | .element nm as ch => .element nm as (normTexts ch)
  | n => n

theorem childrenOf_normElem (n : Node) :
    childrenOf (normElem n) = normTexts (childrenOf n) := by
  cases n <;> simp [normElem, childrenOf, normTexts]

theorem attr?_normElem (n : Node) (k : String) : attr? (normElem n) k = attr? n k := by
  cases n <;> rfl

theorem elemsNamed_consText (tag : String) (s : String) (ns : List Node) :
    elemsNamed tag (consText s ns) = elemsNamed tag ns := by
  unfold consText
  split
  · rfl
  · simp [elemsNamed, List.filter_cons, isElemNamed]

theorem elems_norm (tag : String) (ns : List Node) :
    elemsNamed tag (normTexts ns) = (elemsNamed tag ns).map normElem := by
  induction ns with
  | nil => simp [normTexts, elemsNamed]
  | cons n rest ih =>
    match n with
    | .text s =>
      have hskip : elemsNamed tag (Node.text s :: rest) = elemsNamed tag rest := by
        simp [elemsNamed, List.filter_cons, isElemNamed]
      rw [hskip]
      simp only [normTexts]
      split
      · rename_i t r heq
        rw [elemsNamed_consText]
        have : elemsNamed tag (Node.text t :: r) = elemsNamed tag r := by
          simp [elemsNamed, List.filter_cons, isElemNamed]
        rw [← this, ← heq, ih]
      · rename_i r heq
        rw [elemsNamed_consText, ← ih]
    | .element nm as ch =>
      simp only [normTexts, elemsNamed, List.filter_cons]
      have hsame : isElemNamed tag (Node.element nm as (normTexts ch)) =
          isElemNamed tag (Node.element nm as ch) := by
        simp [isElemNamed]
      rw [hsame]
      by_cases hn : isElemNamed tag (Node.element nm as ch) = true
      · simp only [hn, if_pos, List.map_cons]
        unfold elemsNamed at ih
        rw [ih]
        rfl
      · have hn' : isElemNamed tag (Node.element nm as ch) = false := by
          cases hx : isElemNamed tag (Node.element nm as ch)
          · rfl
          · exact absurd hx hn
        simp only [hn', Bool.false_eq_true, if_false]
        unfold elemsNamed at ih
        rw [ih]
    | .comment s =>
      have hskip : ∀ (X : List Node),
          elemsNamed tag (Node.comment s :: X) = elemsNamed tag X := by
        intro X; simp [elemsNamed, List.filter_cons, isElemNamed]
      simp only [normTexts]
      rw [hskip, hskip, ih]

theorem termMatches_normElem (t : Node) : termMatches (normElem t) = termMatches t := by
  unfold termMatches
  rw [attr?_normElem]

theorem jsProp_norm (tag : String) (ch : List Node) :
    jsProp tag (normTexts ch) =
      (match jsProp tag ch with
       | .undef => .undef
       | .one x => .one (normElem x)
       | .many xs => .many (xs.map normElem)) := by
  unfold jsProp
  rw [elems_norm]
  cases hx : elemsNamed tag ch with
  | nil => rfl
  | cons a r =>
    cases r with
    | nil => rfl
    | cons b r2 => rfl

theorem macroMatches_normElem (m : Node) : macroMatches (normElem m) = macroMatches m := by
  unfold macroMatches
  rw [childrenOf_normElem, jsProp_norm]
  cases h1 : jsProp "names" (childrenOf m) with
  | undef => rfl
  | many xs => rfl
  | one n =>
    simp only
    rw [childrenOf_normElem, jsProp_norm]
    cases h2 : jsProp "et-al" (childrenOf n) with
    | undef => rfl
    | many xs => rfl
    | one ea =>
      simp only
      rw [attr?_normElem]

theorem sectionNoDev_normElem (s : Node) : sectionNoDev (normElem s) = sectionNoDev s := by
  unfold sectionNoDev
  rw [childrenOf_normElem, elems_norm, List.length_map]

theorem localeNoDev_normElem (l : Node) : localeNoDev (normElem l) = localeNoDev l := by
  unfold localeNoDev
  rw [childrenOf_normElem, elems_norm, List.all_map]
  congr 1
  funext tc
  simp only [Function.comp_apply]
  rw [childrenOf_normElem, elems_norm, List.all_map]
  congr 1
  funext t
  simp only [Function.comp_apply, termMatches_normElem]

theorem localeShapeOk_normElem (l : Node) : localeShapeOk (normElem l) = localeShapeOk l := by
  unfold localeShapeOk
  rw [childrenOf_normElem, elems_norm]
  cases hx : elemsNamed "terms" (childrenOf l) with
  | nil => rfl
  | cons t r =>
    cases r with
    | nil =>
      simp only [List.map_cons, List.map_nil]
      rw [childrenOf_normElem, elems_norm]
      cases elemsNamed "term" (childrenOf t) <;> rfl
    | cons t2 r2 => rfl

theorem isEmpty_map (f : Node → Node) (l : List Node) :
    (l.map f).isEmpty = l.isEmpty := by
  cases l <;> rfl

theorem all_map_nodes (f : Node → Node) (p : Node → Bool) (l : List Node)
    (h : ∀ x, p (f x) = p x) : (l.map f).all p = l.all p := by
  rw [List.all_map]
  congr 1
  funext x
  simp only [Function.comp_apply, h]

theorem secShape_norm (tag : String) (ch : List Node) :
    (match elemsNamed tag (normTexts ch) with
     | [b] => !(elemsNamed "layout" (childrenOf b)).isEmpty
     | _ => false) =
    (match elemsNamed tag ch with
     | [b] => !(elemsNamed "layout" (childrenOf b)).isEmpty
     | _ => false) := by
  rw [elems_norm]
  cases hx : elemsNamed tag ch with
  | nil => rfl
  | cons b r =>
    cases r with
    | nil =>
      simp only [List.map_cons, List.map_nil]
      rw [childrenOf_normElem, elems_norm, isEmpty_map]
    | cons b2 r2 => rfl

theorem WellShapedCh_normTexts (ch : List Node) :
    WellShapedCh (normTexts ch) = WellShapedCh ch := by
  unfold WellShapedCh
  rw [secShape_norm, secShape_norm, elems_norm "locale", elems_norm "macro",
    List.length_map, isEmpty_map, all_map_nodes _ _ _ localeShapeOk_normElem]

theorem NoDevCh_normTexts (ch : List Node) :
    NoDevCh (normTexts ch) = NoDevCh ch := by
  unfold NoDevCh
  rw [elems_norm "bibliography", elems_norm "citation", elems_norm "locale",
    elems_norm "macro",
    all_map_nodes _ _ _ sectionNoDev_normElem,
    all_map_nodes _ _ _ sectionNoDev_normElem,
    all_map_nodes _ _ _ localeNoDev_normElem,
    all_map_nodes _ _ _ (fun m => by rw [macroMatches_normElem])]

theorem WellShapedB_normTexts (d : Document) :
    WellShapedB (normTexts d) = WellShapedB d := by
  unfold WellShapedB
  rw [elems_norm]
  cases hx : elemsNamed "style" d with
  | nil => rfl
  | cons st r =>
    cases r with
    | nil =>
      simp only [List.map_cons, List.map_nil]
      rw [childrenOf_normElem, WellShapedCh_normTexts]
    | cons st2 r2 => rfl

theorem NoDevB_normTexts (d : Document) :
    NoDevB (normTexts d) = NoDevB d := by
  unfold NoDevB
  rw [elems_norm]
  exact all_map_nodes _ _ _
    (fun st => by rw [childrenOf_normElem, NoDevCh_normTexts])

theorem pipeline_idem (s : List Char) (m : List String) (out : List Char)
    (h : pipeline s = .ok (m, out)) : pipeline out = .ok ([], out) := by
  unfold pipeline at h
  split at h
  · exact absurd h (by simp)
  · rename_i d hps
    split at h
    · exact absurd h (by simp)
    · rename_i msgs d' hnm
      simp only [Except.ok.injEq, Prod.mk.injEq] at h
      obtain ⟨_, h2⟩ := h
      have hv' : validNodes d' = true :=
        normalize_csl_valid d msgs d' hnm (parseDoc_valid s d hps)
      have hcomp : parseDoc (serNodes d') = some (normTexts d') :=
        parseDoc_complete d' hv'
      have hbytes : serNodes (normTexts d') = serNodes d' :=
        parseDoc_sound _ _ hcomp
      obtain ⟨hw, hnd⟩ := normalize_post d msgs d' hnm
      have hid : normalize_csl (normTexts d') = .ok ([], normTexts d') :=
        normalize_id _ (by rw [WellShapedB_normTexts]; exact hw)
          (by rw [NoDevB_normTexts]; exact hnd)
      subst h2
      unfold pipeline
      rw [hcomp]
      simp only [hid, hbytes]

/-- A single default `layout` element. -/
def layout0 : Node := .element "layout" [] []

/-- A `bibliography` with one layout. -/
def bib1 : Node := .element "bibliography" [] [layout0]

/-- A `citation` with one layout. -/
def cit1 : Node := .element "citation" [] [layout0]

/-- A `locale` with no children. -/
def loc0 : Node := .element "locale" [] []

/-- A plain `macro` element. -/
def mac0 : Node := .element "macro" [] []

/-- A well-shaped document with none of the catalog's deviations. -/
def docND : Document :=
  [.element "style" [] [bib1, cit1, loc0, mac0, mac0]]

/-- A layout localized `en`. -/
def layoutEn : Node := .element "layout" [("locale", "en")] []

/-- A layout localized `zh`. -/
def layoutZh : Node := .element "layout" [("locale", "zh")] []

/-- A layout localized `de`. -/
def layoutDe : Node := .element "layout" [("locale", "de")] []

/-- A bibliography carrying the CSL-M layout pair (`en` then `zh`). -/
def bibDev : Node := .element "bibliography" [] [layoutEn, layoutZh]

/-- Style children around `bibDev`. -/
def chDev : List Node := [bibDev, cit1, loc0, mac0, mac0]

/-- A document whose bibliography carries the CSL-M layout pair
(`en` then `zh`). -/
def docDev : Document := [.element "style" [] chDev]

/-- `docDev` after normalization: only the `zh` layout is left. -/
def docDev2 : Document :=
  [.element "style" []
    [.element "bibliography" [] [layoutZh], cit1, loc0, mac0, mac0]]

/-- A bibliography with three layouts of pairwise-distinct locales. -/
def bib3 : Node := .element "bibliography" [] [layoutEn, layoutZh, layoutDe]

/-- Style children around `bib3`. -/
def ch3 : List Node := [bib3, cit1, loc0, mac0, mac0]

/-- The style element around `ch3`. -/
def st3 : Node := .element "style" [] ch3

/-- A document with three pairwise-distinct locale layouts in its
bibliography. -/
def doc3 : Document := [st3]

/-- A two-layout bibliography whose first layout has no locale attribute. -/
def bibNoLocAttr : Node := .element "bibliography" [] [layout0, layoutZh]

/-- Style children around `bibNoLocAttr`. -/
def chNoLocAttr : List Node := [bibNoLocAttr, cit1, loc0, mac0, mac0]

/-- A document whose bibliography has two layouts, the first without a
locale attribute. -/
def docNoLocAttr : Document := [.element "style" [] chNoLocAttr]

/-- A deviation-free document without a `citation` section. -/
def docNoCite : Document :=
  [.element "style" [] [bib1, loc0, mac0, mac0]]

/-- A deviation-free document without any `locale` element. -/
def docNoLoc : Document :=
  [.element "style" [] [bib1, cit1, mac0, mac0]]

/-- A `space-et-al` term declaration. -/
def termDecl : Node := .element "term" [("name", "space-et-al")] [.text "etc"]

/-- A macro holding a `names/et-al` reference to `space-et-al`. -/
def refMacro : Node :=
  .element "macro" []
    [.element "names" [] [.element "et-al" [("term", "space-et-al")] []]]

/-- A document with a `space-et-al` declaration and a reference from its
only macro. -/
def docOneMacro : Document :=
  [.element "style" []
    [bib1, cit1,
     .element "locale" [] [.element "terms" [] [termDecl]],
     refMacro]]

/-- Style children with a `space-et-al` declaration and a reference,
among two macros. -/
def chBoth : List Node :=
  [bib1, cit1,
   .element "locale" [] [.element "terms" [] [termDecl]],
   refMacro, mac0]

/-- A document with a `space-et-al` declaration and a reference, among two
macros. -/
def docBoth : Document := [.element "style" [] chBoth]

/-- `docBoth` after the rename rule: both occurrences rewritten to
`et-al`, everything else unchanged. -/
def docBoth2 : Document :=
  [.element "style" []
    [bib1, cit1,
     .element "locale" []
       [.element "terms" [] [.element "term" [("name", "et-al")] [.text "etc"]]],
     .element "macro" []
       [.element "names" [] [.element "et-al" [("term", "et-al")] []]],
     mac0]]

/-- A three-layout `citation` section. -/
def cit3 : Node := .element "citation" [] [layoutEn, layoutZh, layoutDe]

/-- Style children with a healthy bibliography and the three-layout
citation. -/
def chCit3 : List Node := [bib1, cit3, loc0, mac0, mac0]

/-- A document with a healthy bibliography and a three-layout citation. -/
def docCit3 : Document := [.element "style" [] chCit3]

/-- A document with a three-layout citation and no bibliography at all. -/
def docCit3NoBib : Document := [.element "style" [] [cit3, loc0, mac0, mac0]]

/-- Does the string end in a closing bracket or parenthesis (the spec's
deviation-category tag)? -/
def endsTagged (s : String) : Bool :=
  s.data.getLast? == some ')' || s.data.getLast? == some ']'

/-- Modelled from the spec: the text value of a term element (its text
children concatenated). -/
def textOf (n : Node) : String :=
  (childrenOf n).foldr (fun c acc => match c with | .text s => s ++ acc | _ => acc) ""

/-- Modelled from the spec: a term child declaring the undocumented
`citation-range-delimiter` term. -/
def isRangeDelim (c : Node) : Bool :=
  isElemNamed "term" c && attr? c "name" == some "citation-range-delimiter"

/-- Modelled from the spec: message for deleting the sole range-delimiter
term together with its wrapping `terms` collection. -/
def rdMsgSole (v : String) : String :=
  "Removed the term citation-range-delimiter (" ++ v ++
    ") and its wrapping tag. [Discard citeproc-js extension]"

/-- Modelled from the spec: message for deleting a range-delimiter term
that has sibling terms. -/
def rdMsgOnly (v : String) : String :=
  "Removed the term citation-range-delimiter (" ++ v ++
    "). [Discard citeproc-js extension]"

/-- Modelled from the spec: process one `terms` collection, deleting every
range-delimiter term; the collection itself is dropped (`none`) when such
a term was its sole term, and one message per deleted term names its text
value. -/
def rdProcessColl (tc : Node) : List String × Option Node :=
  if ((elemsNamed "term" (childrenOf tc)).filter isRangeDelim).isEmpty then
    ([], some tc)
  else if (elemsNamed "term" (childrenOf tc)).length == 1 then
    (((elemsNamed "term" (childrenOf tc)).filter isRangeDelim).map
       (fun t => rdMsgSole (textOf t)), none)
  else
    (((elemsNamed "term" (childrenOf tc)).filter isRangeDelim).map
       (fun t => rdMsgOnly (textOf t)),
     some (setChildren ((childrenOf tc).filter (fun c => !isRangeDelim c)) tc))

/-- Modelled from the spec: the removal pass over a locale's children,
keeping non-`terms` children and replacing each `terms` collection by the
outcome of `rdProcessColl`. -/
def rdChildren : List Node → List String × List Node
  | [] => ([], [])
  | c :: cs =>
    if isElemNamed "terms" c then
      match rdProcessColl c with
      | (m, some c2) => (m ++ (rdChildren cs).1, c2 :: (rdChildren cs).2)
      | (m, none) => (m ++ (rdChildren cs).1, (rdChildren cs).2)
    else ((rdChildren cs).1, c :: (rdChildren cs).2)

/-- Modelled from the spec: the catalog's `citation-range-delimiter`
removal rule, acting on one locale. -/
def remove_range_delimiter_terms_locale (l : Node) : List String × Node :=
  match l with
  | .element nm as ch => ((rdChildren ch).1, .element nm as (rdChildren ch).2)
  | n => ([], n)

/-- Modelled from the spec: the scenario's range-delimiter term with text
value `v`. -/
def rdTerm (v : String) : Node :=
  .element "term" [("name", "citation-range-delimiter")] [.text v]

theorem rdChildren_cons_skip (c : Node) (cs : List Node)
    (hc : isElemNamed "terms" c = false) :
    rdChildren (c :: cs) = ((rdChildren cs).1, c :: (rdChildren cs).2) := by
  show (if isElemNamed "terms" c = true then
          match rdProcessColl c with
          | (m, some c2) => (m ++ (rdChildren cs).1, c2 :: (rdChildren cs).2)
          | (m, none) => (m ++ (rdChildren cs).1, (rdChildren cs).2)
        else ((rdChildren cs).1, c :: (rdChildren cs).2)) =
      ((rdChildren cs).1, c :: (rdChildren cs).2)
  rw [hc, if_neg (by simp)]

theorem rdChildren_skip (ns : List Node)
    (h : ns.all (fun c => !isElemNamed "terms" c) = true) :
    rdChildren ns = ([], ns) := by
  induction ns with
  | nil => rfl
  | cons c cs ih =>
    simp only [List.all_cons, Bool.and_eq_true] at h
    have hc : isElemNamed "terms" c = false := by
      cases hx : isElemNamed "terms" c
      · rfl
      · rw [hx] at h; simp at h
    rw [rdChildren_cons_skip c cs hc, ih h.2]

theorem rdChildren_app (pre rest : List Node)
    (h : pre.all (fun c => !isElemNamed "terms" c) = true) :
    rdChildren (pre ++ rest) = ((rdChildren rest).1, pre ++ (rdChildren rest).2) := by
  induction pre with
  | nil => simp
  | cons c cs ih =>
    simp only [List.all_cons, Bool.and_eq_true] at h
    have hc : isElemNamed "terms" c = false := by
      cases hx : isElemNamed "terms" c
      · rfl
      · rw [hx] at h; simp at h
    simp only [List.cons_append]
    rw [rdChildren_cons_skip c (cs ++ rest) hc, ih h.2]

theorem textOf_rdTerm (v : String) : textOf (rdTerm v) = v := by
  unfold textOf rdTerm childrenOf
  simp only [List.foldr_cons, List.foldr_nil]
  exact String.append_empty v

/-- Modelled from the spec: a term element that is not the range-delimiter
term, to sit beside one. -/
def othTerm : Node := .element "term" [("name", "et-al")] [.text "etc"]

theorem single_of_len {α : Type} (xs : List α) (h : xs.length = 1) :
    ∃ x, xs = [x] := by
  cases xs with
  | nil => simp at h
  | cons a t =>
    cases t with
    | nil => exact ⟨a, rfl⟩
    | cons b t2 => simp at h

theorem dedup_section_two (tag msg : String) (ch : List Node) (sec l x : Node)
    (hsec : elemsNamed tag ch = [sec])
    (hl : elemsNamed "layout" (childrenOf sec) = [l, x]) :
    dedup_section tag msg ch =
      (if locale_ok l then .ok ([msg], updateElems tag removeFirstLayout ch)
       else .error .assertionError) := by
  unfold dedup_section
  simp only [jsProp_eq_one _ _ _ hsec, hl]
  simp

theorem dedup_section_over (tag msg : String) (ch : List Node) (sec l : Node)
    (rest : List Node) (hsec : elemsNamed tag ch = [sec])
    (hl : elemsNamed "layout" (childrenOf sec) = l :: rest)
    (h2 : 2 ≤ rest.length) :
    dedup_section tag msg ch = .error .assertionError := by
  unfold dedup_section
  simp only [jsProp_eq_one _ _ _ hsec, hl]
  cases rest with
  | nil => simp at h2
  | cons a t =>
    cases t with
    | nil => simp at h2
    | cons b t2 => simp

theorem dedup_section_msgs (tag msg : String) (ch : List Node) (m : List String)
    (ch' : List Node) (h : dedup_section tag msg ch = .ok (m, ch')) :
    m = [] ∨ m = [msg] := by
  unfold dedup_section at h
  split at h
  · exact absurd h (by simp)
  · exact absurd h (by simp)
  · split at h
    · exact absurd h (by simp)
    · simp only [Except.ok.injEq, Prod.mk.injEq] at h
      exact .inl h.1.symm
    · split at h
      · split at h
        · simp only [Except.ok.injEq, Prod.mk.injEq] at h
          exact .inr h.1.symm
        · exact absurd h (by simp)
      · exact absurd h (by simp)

/-- C1 (amended): a successfully parsed byte sequence is reproduced
bit-for-bit by serializing the parsed document, and on a well-shaped
deviation-free document the normalization additionally succeeds with no
message and byte-identical output.  The claim's unconditional empty-log
part fails: a deviation-free document can still make the rules throw. -/
theorem claim_C1 (s : List Char) (d : Document) (h : parseDoc s = some d) :
    serNodes d = s ∧
    (WellShapedB d = true → NoDevB d = true → pipeline s = .ok ([], s)) := by
  refine ⟨parseDoc_sound s d h, fun hw hnd => ?_⟩
  unfold pipeline
  rw [h]
  simp only [normalize_id d hw hnd]
  rw [parseDoc_sound s d h]

/-- C1, counterexample: the serialization of `docNoCite` parses back and
carries none of the catalog's deviations, yet normalization raises a
TypeError instead of yielding an empty message log. -/
theorem claim_C1_counterexample :
    parseDoc (serNodes docNoCite) = some docNoCite ∧
    NoDevB docNoCite = true ∧
    pipeline (serNodes docNoCite) = .error .typeError :=
  ⟨rfl, rfl, rfl⟩

/-- C1, witness: the amended theorem at the concrete document `docND`. -/
theorem claim_C1_witness :
    parseDoc (serNodes docND) = some docND ∧
    WellShapedB docND = true ∧ NoDevB docND = true ∧
    serNodes docND = serNodes docND ∧
    pipeline (serNodes docND) = .ok ([], serNodes docND) := by
  have h : parseDoc (serNodes docND) = some docND := rfl
  exact ⟨h, rfl, rfl, (claim_C1 _ _ h).1, (claim_C1 _ _ h).2 rfl rfl⟩

/-- C2: pipeline idempotence — whenever the pipeline succeeds, a second
run on the serialized output emits zero messages and returns the same
bytes. -/
theorem claim_C2 (s : List Char) (m : List String) (out : List Char)
    (h : pipeline s = .ok (m, out)) : pipeline out = .ok ([], out) :=
  pipeline_idem s m out h

/-- C2, witness: the pipeline on the two-layout document emits the
deduplication message, and its output is a fixed point. -/
theorem claim_C2_witness :
    pipeline (serNodes docDev) = .ok ([bibMsg], serNodes docDev2) ∧
    pipeline (serNodes docDev2) = .ok ([], serNodes docDev2) :=
  ⟨rfl, claim_C2 (serNodes docDev) [bibMsg] (serNodes docDev2) rfl⟩

/-- C3 (amended): on a section whose layout list is `l :: rest`, the rule
leaves a singleton list untouched with no message; with exactly two
layouts whose first is `en`- or `zh`-localized it removes the first and
emits one fixed message (which does not name the removed locale); any
other multi-entry list — three or more layouts, or a first locale outside
en/zh — raises an assertion error instead of emitting `k − 1` messages. -/
theorem claim_C3 (tag msg : String) (ch : List Node) (sec l : Node)
    (rest : List Node) (hsec : elemsNamed tag ch = [sec])
    (hl : elemsNamed "layout" (childrenOf sec) = l :: rest) :
    (rest = [] → dedup_section tag msg ch = .ok ([], ch)) ∧
    (rest.length = 1 → locale_ok l = true →
       dedup_section tag msg ch =
         .ok ([msg], updateElems tag removeFirstLayout ch)) ∧
    (rest.length = 1 → locale_ok l = false →
       dedup_section tag msg ch = .error .assertionError) ∧
    (2 ≤ rest.length → dedup_section tag msg ch = .error .assertionError) := by
  refine ⟨?_, ?_, ?_, ?_⟩
  · rintro rfl
    exact dedup_section_id tag msg ch sec l hsec hl
  · intro hr hloc
    obtain ⟨x, rfl⟩ := single_of_len rest hr
    rw [dedup_section_two tag msg ch sec l x hsec hl, if_pos hloc]
  · intro hr hloc
    obtain ⟨x, rfl⟩ := single_of_len rest hr
    rw [dedup_section_two tag msg ch sec l x hsec hl, if_neg (by simp [hloc])]
  · intro h2
    exact dedup_section_over tag msg ch sec l rest hsec hl h2

/-- C3, counterexample: a bibliography with three pairwise-distinct locale
layouts makes the rule raise an assertion error instead of emitting two
messages and keeping the last layout. -/
theorem claim_C3_counterexample :
    (elemsNamed "layout" (childrenOf bib3)).length = 3 ∧
    remove_duplicate_layouts doc3 = .error .assertionError :=
  ⟨rfl, rfl⟩

/-- C3, witness: the amended theorem's two-layout branch at `chDev`. -/
theorem claim_C3_witness :
    elemsNamed "bibliography" chDev = [bibDev] ∧
    elemsNamed "layout" (childrenOf bibDev) = layoutEn :: [layoutZh] ∧
    ([layoutZh] : List Node).length = 1 ∧ locale_ok layoutEn = true ∧
    dedup_section "bibliography" bibMsg chDev =
      .ok ([bibMsg], updateElems "bibliography" removeFirstLayout chDev) := by
  refine ⟨rfl, rfl, rfl, rfl, ?_⟩
  exact (claim_C3 "bibliography" bibMsg chDev bibDev layoutEn [layoutZh]
    rfl rfl).2.1 rfl rfl

/-- C4: the code violates absence tolerance — a style without a `citation`
section makes `remove_duplicate_layouts` raise a TypeError, and a style
without any `locale` element makes `replace_space_et_al_terms` raise a
TypeError, instead of returning the document unchanged with no message. -/
theorem claim_C4 :
    remove_duplicate_layouts docNoCite = .error .typeError ∧
    replace_space_et_al_terms docNoLoc = .error .typeError :=
  ⟨rfl, rfl⟩

/-- C5 (amended): with exactly the two bibliography layouts `en` then
`zh`, the rule keeps only the `zh` layout, but the emitted message is the
code's fixed string "Removed the localized layout for bibliography.
(Discard CSL-M extension)", which names no locale and is parenthesized,
not bracketed. -/
theorem claim_C5 (ch : List Node) (b l1 l2 : Node)
    (hb : elemsNamed "bibliography" ch = [b])
    (hl : elemsNamed "layout" (childrenOf b) = [l1, l2])
    (h1 : attr? l1 "locale" = some "en") (h2 : attr? l2 "locale" = some "zh") :
    dedup_section "bibliography" bibMsg ch =
      .ok ([bibMsg], updateElems "bibliography" removeFirstLayout ch) ∧
    elemsNamed "layout" (childrenOf (removeFirstLayout b)) = [l2] ∧
    bibMsg =
      "Removed the localized layout for bibliography. (Discard CSL-M extension)" := by
  refine ⟨?_, ?_, rfl⟩
  · rw [dedup_section_two "bibliography" bibMsg ch b l1 l2 hb hl,
      if_pos (by simp [locale_ok, h1])]
  · obtain ⟨as, bch, rfl⟩ : ∃ as bch, b = .element "bibliography" as bch := by
      have hmem : b ∈ elemsNamed "bibliography" ch := by rw [hb]; simp
      exact isElemNamed_elim _ _ (elemsNamed_mem _ _ _ hmem).2
    have hl' : List.filter (isElemNamed "layout") bch = [l1, l2] := hl
    show List.filter (isElemNamed "layout")
        (bch.eraseP (isElemNamed "layout")) = [l2]
    rw [filter_eraseP, hl']
    rfl

/-- C5, counterexample: the code's actual message for the en/zh scenario
differs from the claim's string. -/
theorem claim_C5_counterexample :
    (∃ d', normalize_csl docDev = .ok ([bibMsg], d')) ∧
    bibMsg ≠
      "Removed the localized (en) layout for bibliography. [Discard CSL-M extension]" :=
  ⟨⟨docDev2, rfl⟩, by decide⟩

/-- C5, witness: the amended theorem at the concrete en/zh document. -/
theorem claim_C5_witness :
    elemsNamed "bibliography" chDev = [bibDev] ∧
    elemsNamed "layout" (childrenOf bibDev) = [layoutEn, layoutZh] ∧
    attr? layoutEn "locale" = some "en" ∧
    attr? layoutZh "locale" = some "zh" ∧
    (dedup_section "bibliography" bibMsg chDev =
       .ok ([bibMsg], updateElems "bibliography" removeFirstLayout chDev) ∧
     elemsNamed "layout" (childrenOf (removeFirstLayout bibDev)) = [layoutZh] ∧
     bibMsg =
       "Removed the localized layout for bibliography. (Discard CSL-M extension)") :=
  ⟨rfl, rfl, rfl, rfl, claim_C5 chDev bibDev layoutEn layoutZh rfl rfl rfl rfl⟩

/-- C6, counterexample: with the declaration and the reference present but
only one macro in the style, the rule raises a TypeError (iterating the
collapsed single-macro object) instead of renaming both occurrences and
emitting two messages. -/
theorem claim_C6_counterexample :
    termMatches termDecl = true ∧ macroMatches refMacro = true ∧
    replace_space_et_al_terms docOneMacro = .error .typeError :=
  ⟨rfl, rfl, rfl⟩

/-- C7: with more than one layout in a section, a first layout without a
locale attribute makes the rule fail loudly with an assertion error (both
with exactly two entries and with more). -/
theorem claim_C7 (tag msg : String) (ch : List Node) (sec l : Node)
    (rest : List Node) (hsec : elemsNamed tag ch = [sec])
    (hl : elemsNamed "layout" (childrenOf sec) = l :: rest) (hne : rest ≠ [])
    (hloc : attr? l "locale" = none) :
    dedup_section tag msg ch = .error .assertionError := by
  match rest, hne with
  | x :: rest2, _ =>
    cases rest2 with
    | nil =>
      rw [dedup_section_two tag msg ch sec l x hsec hl,
        if_neg (by simp [locale_ok, hloc])]
    | cons y rest3 =>
      exact dedup_section_over tag msg ch sec l _ hsec hl
        (by simp only [List.length_cons]; omega)

/-- C7, witness: the theorem at the two-layout bibliography whose first
layout has no locale attribute. -/
theorem claim_C7_witness :
    elemsNamed "bibliography" chNoLocAttr = [bibNoLocAttr] ∧
    elemsNamed "layout" (childrenOf bibNoLocAttr) = layout0 :: [layoutZh] ∧
    ([layoutZh] : List Node) ≠ [] ∧
    attr? layout0 "locale" = none ∧
    dedup_section "bibliography" bibMsg chNoLocAttr = .error .assertionError := by
  refine ⟨rfl, rfl, by simp, rfl, ?_⟩
  exact claim_C7 "bibliography" bibMsg chNoLocAttr bibNoLocAttr layout0
    [layoutZh] rfl rfl (by simp) rfl

/-- C8 (amended): every message `remove_duplicate_layouts` can emit ends
with a parenthesized deviation category, but both messages of
`replace_space_et_al_terms` end with a period — no trailing bracket or
parenthesis. -/
theorem claim_C8 (d : Document) (m : List String) (d' : Document)
    (h : remove_duplicate_layouts d = .ok (m, d')) :
    (∀ s ∈ m, endsTagged s = true) ∧
    endsTagged declMsg = false ∧ endsTagged refMsg = false := by
  refine ⟨?_, rfl, rfl⟩
  unfold remove_duplicate_layouts at h
  split at h
  · exact absurd h (by simp)
  · exact absurd h (by simp)
  · split at h
    · exact absurd h (by simp)
    · rename_i m1 c1 hbib
      split at h
      · exact absurd h (by simp)
      · rename_i m2 c2 hcite
        simp only [Except.ok.injEq, Prod.mk.injEq] at h
        obtain ⟨h1, _⟩ := h
        subst h1
        intro s hs
        rcases List.mem_append.mp hs with hs1 | hs1
        · rcases dedup_section_msgs _ _ _ _ _ hbib with rfl | rfl
          · simp at hs1
          · simp at hs1
            subst hs1
            rfl
        · rcases dedup_section_msgs _ _ _ _ _ hcite with rfl | rfl
          · simp at hs1
          · simp at hs1
            subst hs1
            rfl

/-- C8, counterexample: the two rename messages of
`replace_space_et_al_terms` are really emitted and end untagged. -/
theorem claim_C8_counterexample :
    (∃ d', replace_space_et_al_terms docBoth = .ok ([declMsg, refMsg], d')) ∧
    endsTagged declMsg = false ∧ endsTagged refMsg = false :=
  ⟨⟨_, rfl⟩, rfl, rfl⟩

/-- C8, witness: the amended theorem at the en/zh document, whose one
emitted message ends with its parenthesized category. -/
theorem claim_C8_witness :
    remove_duplicate_layouts docDev = .ok ([bibMsg], docDev2) ∧
    ((∀ s ∈ [bibMsg], endsTagged s = true) ∧
     endsTagged declMsg = false ∧ endsTagged refMsg = false) :=
  ⟨rfl, claim_C8 docDev [bibMsg] docDev2 rfl⟩

/-- C9 (modelled from the spec, code not in the repository): for a locale
with one `terms` collection holding the `citation-range-delimiter` term,
the rule deletes the term; the collection itself is dropped exactly when
that term was its sole term; one message per deletion names the deleted
term's text value; and the sole-term message for value `-` is the spec's
exact scenario string. -/
theorem claim_C9 (nm v : String) (las tas : List (String × String))
    (pre post : List Node) (oth : Node)
    (hpre : pre.all (fun c => !isElemNamed "terms" c) = true)
    (hpost : post.all (fun c => !isElemNamed "terms" c) = true)
    (hoth : isElemNamed "term" oth = true)
    (hothn : (attr? oth "name" == some "citation-range-delimiter") = false) :
    remove_range_delimiter_terms_locale
        (.element nm las (pre ++ .element "terms" tas [rdTerm v] :: post)) =
      ([rdMsgSole v], .element nm las (pre ++ post)) ∧
    remove_range_delimiter_terms_locale
        (.element nm las (pre ++ .element "terms" tas [rdTerm v, oth] :: post)) =
      ([rdMsgOnly v], .element nm las (pre ++ .element "terms" tas [oth] :: post)) ∧
    rdMsgSole "-" =
      "Removed the term citation-range-delimiter (-) and its wrapping tag. [Discard citeproc-js extension]" := by
  have hRD : isRangeDelim (rdTerm v) = true := rfl
  have hRDo : isRangeDelim oth = false := by
    unfold isRangeDelim
    rw [hoth, hothn]
    rfl
  have hsole : rdProcessColl (.element "terms" tas [rdTerm v]) =
      ([rdMsgSole (textOf (rdTerm v))], none) := rfl
  rw [textOf_rdTerm] at hsole
  have hts : elemsNamed "term"
      (childrenOf (.element "terms" tas [rdTerm v, oth])) = [rdTerm v, oth] := by
    show List.filter (isElemNamed "term") [rdTerm v, oth] = [rdTerm v, oth]
    rw [List.filter_cons, List.filter_cons, List.filter_nil]
    rw [show isElemNamed "term" (rdTerm v) = true from rfl, hoth]
    simp
  have hdels : List.filter isRangeDelim [rdTerm v, oth] = [rdTerm v] := by
    rw [List.filter_cons, List.filter_cons, List.filter_nil, hRD, hRDo]
    simp
  have hkeep : List.filter (fun c => !isRangeDelim c) [rdTerm v, oth] = [oth] := by
    rw [List.filter_cons, List.filter_cons, List.filter_nil, hRD, hRDo]
    simp
  have honly : rdProcessColl (.element "terms" tas [rdTerm v, oth]) =
      ([rdMsgOnly (textOf (rdTerm v))], some (.element "terms" tas [oth])) := by
    unfold rdProcessColl
    rw [hts, hdels]
    rw [show childrenOf (.element "terms" tas [rdTerm v, oth]) = [rdTerm v, oth]
      from rfl, hkeep]
    simp [setChildren]
  rw [textOf_rdTerm] at honly
  have hmid1 : rdChildren (.element "terms" tas [rdTerm v] :: post) =
      ([rdMsgSole v], post) := by
    have hstep : rdChildren (.element "terms" tas [rdTerm v] :: post) =
        (match rdProcessColl (.element "terms" tas [rdTerm v]) with
         | (m, some c2) => (m ++ (rdChildren post).1, c2 :: (rdChildren post).2)
         | (m, none) => (m ++ (rdChildren post).1, (rdChildren post).2)) := rfl
    rw [hstep]
    simp only [hsole]
    rw [rdChildren_skip post hpost]
    simp
  have hmid2 : rdChildren (.element "terms" tas [rdTerm v, oth] :: post) =
      ([rdMsgOnly v], .element "terms" tas [oth] :: post) := by
    have hstep : rdChildren (.element "terms" tas [rdTerm v, oth] :: post) =
        (match rdProcessColl (.element "terms" tas [rdTerm v, oth]) with
         | (m, some c2) => (m ++ (rdChildren post).1, c2 :: (rdChildren post).2)
         | (m, none) => (m ++ (rdChildren post).1, (rdChildren post).2)) := rfl
    rw [hstep]
    simp only [honly]
    rw [rdChildren_skip post hpost]
    simp
  refine ⟨?_, ?_, rfl⟩
  · show ((rdChildren (pre ++ .element "terms" tas [rdTerm v] :: post)).1,
        Node.element nm las
          (rdChildren (pre ++ .element "terms" tas [rdTerm v] :: post)).2) =
      ([rdMsgSole v], .element nm las (pre ++ post))
    rw [rdChildren_app pre _ hpre, hmid1]
  · show ((rdChildren (pre ++ .element "terms" tas [rdTerm v, oth] :: post)).1,
        Node.element nm las
          (rdChildren (pre ++ .element "terms" tas [rdTerm v, oth] :: post)).2) =
      ([rdMsgOnly v], .element nm las (pre ++ .element "terms" tas [oth] :: post))
    rw [rdChildren_app pre _ hpre, hmid2]

/-- C9, witness: the theorem at the scenario input (`-`-valued sole term,
with `othTerm` as the sibling of the non-sole variant). -/
theorem claim_C9_witness :
    (([] : List Node).all (fun c => !isElemNamed "terms" c) = true) ∧
    isElemNamed "term" othTerm = true ∧
    (attr? othTerm "name" == some "citation-range-delimiter") = false ∧
    (remove_range_delimiter_terms_locale
        (.element "locale" [] ([] ++ .element "terms" [] [rdTerm "-"] :: [])) =
      ([rdMsgSole "-"], .element "locale" [] ([] ++ [])) ∧
     remove_range_delimiter_terms_locale
        (.element "locale" []
          ([] ++ .element "terms" [] [rdTerm "-", othTerm] :: [])) =
      ([rdMsgOnly "-"],
       .element "locale" [] ([] ++ .element "terms" [] [othTerm] :: [])) ∧
     rdMsgSole "-" =
       "Removed the term citation-range-delimiter (-) and its wrapping tag. [Discard citeproc-js extension]") :=
  ⟨rfl, rfl, rfl, claim_C9 "locale" "-" [] [] [] [] othTerm rfl rfl rfl rfl⟩

/-- Any multi-entry layout list outside the two-entry en/zh-first shape
makes `dedup_section` raise the assertion error. -/
theorem dedup_section_bad (tag msg : String) (ch : List Node) (sec l : Node)
    (rest : List Node) (hsec : elemsNamed tag ch = [sec])
    (hl : elemsNamed "layout" (childrenOf sec) = l :: rest) (hne : rest ≠ [])
    (hbad : ¬(rest.length = 1 ∧ locale_ok l = true)) :
    dedup_section tag msg ch = .error .assertionError := by
  match rest, hne with
  | x :: rest2, _ =>
    cases rest2 with
    | nil =>
      have hloc : locale_ok l = false := by
        cases hx : locale_ok l
        · rfl
        · exact absurd ⟨by simp, hx⟩ hbad
      rw [dedup_section_two tag msg ch sec l x hsec hl,
        if_neg (by simp [hloc])]
    | cons y rest3 =>
      exact dedup_section_over tag msg ch sec l _ hsec hl
        (by simp only [List.length_cons]; omega)

/-- Number of `space-et-al` term declarations in one locale's `terms`
collections. -/
def localeDeclCount (l : Node) : Nat :=
  ((elemsNamed "terms" (childrenOf l)).map (fun tc =>
    ((elemsNamed "term" (childrenOf tc)).filter termMatches).length)).sum

/-- Number of `space-et-al` term declarations among a style's locales. -/
def declCount (ch : List Node) : Nat :=
  ((elemsNamed "locale" ch).map localeDeclCount).sum

/-- Number of macros holding a `names/et-al` reference to `space-et-al`. -/
def refCount (ch : List Node) : Nat :=
  ((elemsNamed "macro" ch).filter macroMatches).length

theorem collectMsgs_termMsgs (ns : List Node) :
    collectMsgs termMsgs ns =
      List.replicate ((ns.filter termMatches).length) declMsg := by
  induction ns with
  | nil => rfl
  | cons n t ih =>
    simp only [collectMsgs, termMsgs, List.filter_cons]
    by_cases h : termMatches n = true
    · simp [h, ih, List.replicate_succ]
    · have hf : termMatches n = false := by
        cases hx : termMatches n
        · rfl
        · exact absurd hx h
      simp [hf, ih]

theorem collectMsgs_macroMsgs (ns : List Node) :
    collectMsgs macroMsgs ns =
      List.replicate ((ns.filter macroMatches).length) refMsg := by
  induction ns with
  | nil => rfl
  | cons n t ih =>
    simp only [collectMsgs, macroMsgs, List.filter_cons]
    by_cases h : macroMatches n = true
    · simp [h, ih, List.replicate_succ]
    · have hf : macroMatches n = false := by
        cases hx : macroMatches n
        · rfl
        · exact absurd hx h
      simp [hf, ih]

theorem locale_terms_msgs (l : Node) (m : List String) (l' : Node)
    (h : locale_terms l = .ok (m, l')) :
    m = List.replicate (localeDeclCount l) declMsg := by
  unfold locale_terms at h
  split at h
  · rename_i hu
    simp only [Except.ok.injEq, Prod.mk.injEq] at h
    obtain ⟨h1, _⟩ := h
    subst h1
    have he : elemsNamed "terms" (childrenOf l) = [] := jsProp_undef_elim _ _ hu
    unfold localeDeclCount
    rw [he]
    rfl
  · exact absurd h (by simp)
  · rename_i t hone
    split at h
    · exact absurd h (by simp)
    · simp only [Except.ok.injEq, Prod.mk.injEq] at h
      obtain ⟨h1, _⟩ := h
      subst h1
      unfold localeDeclCount
      rw [jsProp_one_elim _ _ _ hone, collectMsgs_termMsgs]
      simp

theorem process_locales_msgs (ch : List Node) :
    ∀ m ch', process_locales ch = .ok (m, ch') →
      m = List.replicate (declCount ch) declMsg := by
  induction ch with
  | nil =>
    intro m ch' h
    simp only [process_locales, Except.ok.injEq, Prod.mk.injEq] at h
    obtain ⟨h1, _⟩ := h
    subst h1
    rfl
  | cons n ns ih =>
    intro m ch' h
    simp only [process_locales] at h
    split at h
    · rename_i hloc
      split at h
      · exact absurd h (by simp)
      · rename_i mn n' heq1
        split at h
        · exact absurd h (by simp)
        · rename_i ms ns' heq2
          simp only [Except.ok.injEq, Prod.mk.injEq] at h
          obtain ⟨h1, _⟩ := h
          subst h1
          have hdc : declCount (n :: ns) = localeDeclCount n + declCount ns := by
            unfold declCount elemsNamed
            rw [List.filter_cons, hloc]
            simp
          rw [locale_terms_msgs n mn n' heq1, ih ms ns' heq2, hdc,
            List.replicate_add]
    · rename_i hloc
      split at h
      · exact absurd h (by simp)
      · rename_i ms ns' heq2
        simp only [Except.ok.injEq, Prod.mk.injEq] at h
        obtain ⟨h1, _⟩ := h
        subst h1
        have hloc' : isElemNamed "locale" n = false := by
          cases hx : isElemNamed "locale" n
          · rfl
          · exact absurd hx hloc
        have hdc : declCount (n :: ns) = declCount ns := by
          unfold declCount elemsNamed
          rw [List.filter_cons, hloc']
          simp
        rw [ih ms ns' heq2, hdc]

theorem childrenOf_setAttr (k v : String) (n : Node) :
    childrenOf (setAttr k v n) = childrenOf n := by
  cases n <;> rfl

/-- Effect of the in-place rename on a matching term declaration: the name
becomes `et-al`, the children (the term's text value) stay unchanged. -/
theorem renameTerm_effect (t : Node) (h : termMatches t = true) :
    attr? (renameTerm t) "name" = some "et-al" ∧
    childrenOf (renameTerm t) = childrenOf t := by
  unfold renameTerm
  rw [if_pos h]
  refine ⟨?_, childrenOf_setAttr _ _ _⟩
  refine attr?_setAttr_same "name" "et-al" t "space-et-al" ?_
  unfold termMatches at h
  simpa using h

/-- C6 (amended): whenever `replace_space_et_al_terms` succeeds on a
document with exactly one `space-et-al` term declaration among its
locales and exactly one macro referencing `space-et-al` through
`names/et-al`, it emits exactly the two distinct messages (declaration
first, reference second) and rewrites the style by applying the per-locale
rename and the per-macro reference fix to every element — the rename turns
the declared name into `et-al` keeping the term's content, the fix leaves
the macro unmatched.  Success is not guaranteed by the occurrences alone:
shapes such as a single macro raise a TypeError (see the counterexample),
and more matching declarations emit more messages. -/
theorem claim_C6 (d : Document) (st : Node) (ch : List Node) (m : List String)
    (d' : Document) (hst : elemsNamed "style" d = [st])
    (hch : childrenOf st = ch)
    (h : replace_space_et_al_terms d = .ok (m, d'))
    (hdecl : declCount ch = 1) (href : refCount ch = 1) :
    m = [declMsg, refMsg] ∧ declMsg ≠ refMsg ∧
    d' = updateElems "style"
      (setChildren (updateElems "macro" fixMacroEtAl
        (updateElems "locale" localeFix ch))) d ∧
    (∀ t, termMatches t = true →
       termMatches (renameTerm t) = false ∧
       attr? (renameTerm t) "name" = some "et-al" ∧
       childrenOf (renameTerm t) = childrenOf t) ∧
    (∀ mc, macroMatches mc = true → macroMatches (fixMacroEtAl mc) = false) := by
  unfold replace_space_et_al_terms at h
  split at h
  · exact absurd h (by simp)
  · exact absurd h (by simp)
  · rename_i st0 hone
    have hst0 : st0 = st := by
      have h3 := jsProp_one_elim _ _ _ hone
      rw [hst] at h3
      simp only [List.cons.injEq, and_true] at h3
      exact h3.symm
    subst hst0
    split at h
    · exact absurd h (by simp)
    · split at h
      · exact absurd h (by simp)
      · rename_i m1 ch1 heqp
        split at h
        · exact absurd h (by simp)
        · exact absurd h (by simp)
        · simp only [Except.ok.injEq, Prod.mk.injEq] at h
          obtain ⟨h1, h2⟩ := h
          have hfix : ch1 = updateElems "locale" localeFix ch := by
            have := (process_locales_ok _ m1 ch1 heqp).1
            rw [hch] at this
            exact this
          have hm1 : m1 = [declMsg] := by
            have hr := process_locales_msgs _ m1 ch1 heqp
            rw [hch, hdecl] at hr
            exact hr
          have hmacs : elemsNamed "macro" ch1 = elemsNamed "macro" ch := by
            rw [hfix]
            exact elemsNamed_updateElems_ne "locale" "macro" (by decide)
              localeFix ch nameOf_localeFix
          refine ⟨?_, by decide, ?_, ?_, ?_⟩
          · rw [← h1, hm1, collectMsgs_macroMsgs]
            have hlen : ((elemsNamed "macro" ch1).filter macroMatches).length = 1 := by
              rw [hmacs]
              exact href
            rw [hlen]
            rfl
          · rw [← h2, hfix]
          · intro t ht
            exact ⟨termMatches_renameTerm t, (renameTerm_effect t ht).1,
              (renameTerm_effect t ht).2⟩
          · intro mc _
            exact macroMatches_fixMacroEtAl mc

/-- C6, witness: the amended theorem at `docBoth` (one declaration, one
referencing macro among two), whose run emits exactly the two messages. -/
theorem claim_C6_witness :
    elemsNamed "style" docBoth = [Node.element "style" [] chBoth] ∧
    childrenOf (Node.element "style" [] chBoth) = chBoth ∧
    replace_space_et_al_terms docBoth = .ok ([declMsg, refMsg], docBoth2) ∧
    declCount chBoth = 1 ∧ refCount chBoth = 1 ∧
    (([declMsg, refMsg] : List String) = [declMsg, refMsg] ∧ declMsg ≠ refMsg ∧
     docBoth2 = updateElems "style"
       (setChildren (updateElems "macro" fixMacroEtAl
         (updateElems "locale" localeFix chBoth))) docBoth ∧
     (∀ t, termMatches t = true →
        termMatches (renameTerm t) = false ∧
        attr? (renameTerm t) "name" = some "et-al" ∧
        childrenOf (renameTerm t) = childrenOf t) ∧
     (∀ mc, macroMatches mc = true → macroMatches (fixMacroEtAl mc) = false)) :=
  ⟨rfl, rfl, rfl, rfl, rfl,
   claim_C6 docBoth (.element "style" [] chBoth) chBoth [declMsg, refMsg]
     docBoth2 rfl rfl rfl rfl rfl⟩

/-- C10 (amended): for either section — the tag is generic, covering
`bibliography` and `citation` alike — a multi-entry layout list lets
`dedup_section` complete without raising exactly when it has two entries
whose first is locale-tagged `en` or `zh`; every other multi-entry shape
raises the assertion error, which aborts `remove_duplicate_layouts` and
`normalize_csl`: directly when the bad section is the bibliography, and
after a successful bibliography pass when it is the citation.  (With the
bibliography section absent, a bad citation aborts with a TypeError
instead: see the counterexample.) -/
theorem claim_C10 (d : Document) (st : Node) (ch : List Node)
    (tag msg : String) (sec l : Node) (rest : List Node)
    (hst : elemsNamed "style" d = [st]) (hch : childrenOf st = ch)
    (hsec : elemsNamed tag ch = [sec])
    (hl : elemsNamed "layout" (childrenOf sec) = l :: rest) (hne : rest ≠ []) :
    ((∃ r, dedup_section tag msg ch = .ok r) ↔
       (rest.length = 1 ∧ locale_ok l = true)) ∧
    (¬(rest.length = 1 ∧ locale_ok l = true) →
       dedup_section tag msg ch = .error .assertionError ∧
       (tag = "bibliography" →
          remove_duplicate_layouts d = .error .assertionError ∧
          normalize_csl d = .error .assertionError) ∧
       (tag = "citation" →
          ∀ m1 c1, dedup_section "bibliography" bibMsg ch = .ok (m1, c1) →
            remove_duplicate_layouts d = .error .assertionError ∧
            normalize_csl d = .error .assertionError)) := by
  have herr := dedup_section_bad tag msg ch sec l rest hsec hl hne
  constructor
  · constructor
    · rintro ⟨r, hr⟩
      by_contra hbad
      rw [herr hbad] at hr
      exact absurd hr (by simp)
    · rintro ⟨hr, hloc⟩
      obtain ⟨x, rfl⟩ := single_of_len rest hr
      exact ⟨([msg], updateElems tag removeFirstLayout ch), by
        rw [dedup_section_two tag msg ch sec l x hsec hl, if_pos hloc]⟩
  · intro hbad
    refine ⟨herr hbad, ?_, ?_⟩
    · rintro rfl
      have herrB : dedup_section "bibliography" bibMsg ch =
          .error .assertionError :=
        dedup_section_bad "bibliography" bibMsg ch sec l rest hsec hl hne hbad
      have hrd : remove_duplicate_layouts d = .error .assertionError := by
        unfold remove_duplicate_layouts
        simp only [jsProp_eq_one _ _ _ hst, hch, herrB]
      exact ⟨hrd, by unfold normalize_csl; simp only [hrd]⟩
    · rintro rfl m1 c1 hbib
      have hsec' : elemsNamed "citation" c1 = [sec] := by
        rw [(dedup_section_ok _ _ _ _ _ hbib).2 "citation" (by decide), hsec]
      have hcerr : dedup_section "citation" citeMsg c1 =
          .error .assertionError :=
        dedup_section_bad "citation" citeMsg c1 sec l rest hsec' hl hne hbad
      have hrd : remove_duplicate_layouts d = .error .assertionError := by
        unfold remove_duplicate_layouts
        simp only [jsProp_eq_one _ _ _ hst, hch, hbib, hcerr]
      exact ⟨hrd, by unfold normalize_csl; simp only [hrd]⟩

/-- C10, counterexample: with the bibliography section absent, the same
bad three-layout citation list aborts the rule with a TypeError (the
`csl.style.bibliography.layout` access), not the assertion error the
claim asserts for every bad multi-entry shape. -/
theorem claim_C10_counterexample :
    (elemsNamed "layout" (childrenOf cit3)).length = 3 ∧
    remove_duplicate_layouts docCit3NoBib = .error .typeError ∧
    JsError.typeError ≠ JsError.assertionError :=
  ⟨rfl, rfl, by simp⟩

/-- C10, witness: the amended theorem at `docCit3` (sound bibliography,
three-layout citation), yielding the assertion-error abort of the
citation half. -/
theorem claim_C10_witness :
    elemsNamed "style" docCit3 = [Node.element "style" [] chCit3] ∧
    childrenOf (Node.element "style" [] chCit3) = chCit3 ∧
    elemsNamed "citation" chCit3 = [cit3] ∧
    elemsNamed "layout" (childrenOf cit3) = layoutEn :: [layoutZh, layoutDe] ∧
    ([layoutZh, layoutDe] : List Node) ≠ [] ∧
    ¬(([layoutZh, layoutDe] : List Node).length = 1 ∧
       locale_ok layoutEn = true) ∧
    dedup_section "bibliography" bibMsg chCit3 = .ok ([], chCit3) ∧
    (dedup_section "citation" citeMsg chCit3 = .error .assertionError ∧
     remove_duplicate_layouts docCit3 = .error .assertionError ∧
     normalize_csl docCit3 = .error .assertionError) := by
  have hbad : ¬(([layoutZh, layoutDe] : List Node).length = 1 ∧
      locale_ok layoutEn = true) := by simp
  have happ := claim_C10 docCit3 (.element "style" [] chCit3) chCit3 "citation"
    citeMsg cit3 layoutEn [layoutZh, layoutDe] rfl rfl rfl rfl (by simp)
  obtain ⟨h1, h2, h3⟩ := happ.2 hbad
  exact ⟨rfl, rfl, rfl, rfl, by simp, hbad, rfl,
    h1, (h3 rfl [] chCit3 rfl).1, (h3 rfl [] chCit3 rfl).2⟩
